import Mathlib

/-!
Verification of the dfo pack/unpack/verify protocol (`bin/dfo.py`).

The embedding is shallow: a stream is the list of its blobs (the netstring
framing layer is external, exactly as the spec scopes it), blobs and names are
Lean `String`s read as byte strings, and the checksum engine
(`hashlib.sha1().hexdigest()`) is a parameter `Digest := String → String`,
instantiated by a complete SHA-1 implementation `sha1hex` for concrete
computations.  The destination filesystem mutated by `_UnpackTree` is an
explicit tree value threaded through the unpacker.
-/

set_option maxRecDepth 40000

namespace Dfo

/-- Abstract content hash (`hashlib.sha1(...).hexdigest()` in the source). -/
abbrev Digest := String → String

/-- Source tree node: regular file (contents, owner-executable bit), symlink
(target), or directory (children in on-disk listing order). -/
inductive Node where
  | file (contents : String) (execBit : Bool)
  | symlink (target : String)
  | dir (entries : List (String × Node))

/-- Byte-wise lexicographic comparison on character lists: Python compares
names as byte strings.  Defined from scratch to stay kernel-computable. -/
def strLeChars : List Char → List Char → Bool
  | [], _ => true
  | _ :: _, [] => false
  | a :: as, b :: bs =>
    if a.toNat < b.toNat then true
    else if a.toNat = b.toNat then strLeChars as bs
    else false

/-- Name order used by the sorted directory traversal. -/
def nameLe (a b : String) : Bool := strLeChars a.data b.data

/-- Insert one entry into a name-sorted listing; building block of the model
of Python's `sorted`. -/
def insertEntry (p : String × Node) : List (String × Node) → List (String × Node)
  | [] => [p]
  | q :: rest => if nameLe p.1 q.1 then p :: q :: rest else q :: insertEntry p rest

/-- Name-sorted copy of a directory listing, modelling
`entries = sorted(os.listdir(full_dir))` (dfo.py line 148). -/
def sortEntries : List (String × Node) → List (String × Node)
  | [] => []
  | p :: rest => insertEntry p (sortEntries rest)

mutual
/-- Structural size of a node, the packer's termination measure. -/
def nodeSize : Node → Nat
  | .file _ _ => 1
  | .symlink _ => 1
  | .dir es => 1 + entsSize es

/-- Structural size of a listing. -/
def entsSize : List (String × Node) → Nat
  | [] => 0
  | (_, n) :: rest => 1 + nodeSize n + entsSize rest
end

/-- Manifest permission flag: `'x'` iff the node is a regular file whose
owner-executable bit is set (dfo.py lines 216-220). -/
def execFlag : Node → String
  | .file _ true => "x"
  | _ => "-"

/-- Manifest node-type letter, `F`, `L` or `D` (dfo.py lines 167, 173, 203). -/
def typeChar : Node → String
  | .file _ _ => "F"
  | .symlink _ => "L"
  | .dir _ => "D"

/-- Result of packing one directory entry: its emitted blobs, its checksum,
and its node-count contribution. -/
structure EntryOut where
  blobs : List String
  ck : String
  cnt : Nat

/-- Result of `_PackTree` on one directory: emitted blobs, the manifest text
`dir_obj`, and the running node count. -/
structure DirOut where
  blobs : List String
  obj : String
  cnt : Nat

mutual
/-- One iteration of the entry loop of `_PackTree` (dfo.py lines 152-225):
a symlink emits its `L` pair, a file emits its `F` pair with its streamed
contents, a directory emits its `>` pair, recurses, then emits its `<` pair
whose data blob is the child manifest. -/
def packOne (digest : Digest) (name : String) : Node → EntryOut
  | .symlink target => ⟨["L " ++ name, target], digest target, 1⟩
  | .file contents _ => ⟨["F " ++ name, contents], digest contents, 1⟩
  | .dir es =>
    let r := packEntries digest (sortEntries es)
    ⟨("> " ++ name) :: "" :: (r.blobs ++ ["< " ++ name, r.obj]), digest r.obj, r.cnt + 1⟩
termination_by n => nodeSize n
decreasing_by
  simp_wf
  have hins : ∀ (p : String × Node) (l : List (String × Node)),
      entsSize (insertEntry p l) = 1 + nodeSize p.2 + entsSize l := by
    intro p l
    induction l with
    | nil => simp [insertEntry, entsSize]
    | cons q rest ih =>
      by_cases h : nameLe p.1 q.1 = true
      · simp [insertEntry, h, entsSize]
      · simp [insertEntry, h, entsSize, ih]
        omega
  have hsort : ∀ l, entsSize (sortEntries l) = entsSize l := by
    intro l
    induction l with
    | nil => rfl
    | cons p rest ih => simp [sortEntries, hins, entsSize, ih]
  simp [nodeSize, hsort]

/-- `_PackTree` over an already-listed sequence of entries; callers sort the
listing first, as the source does.  Returns the concatenated emitted blobs,
the manifest (`dir_obj`, one `"{exec} {type} {checksum} {name}\n"` line per
child) and the node count. -/
def packEntries (digest : Digest) : List (String × Node) → DirOut
  | [] => ⟨[], "", 0⟩
  | (name, node) :: rest =>
    let r := packOne digest name node
    let line := execFlag node ++ " " ++ typeChar node ++ " " ++ r.ck ++ " " ++ name ++ "\n"
    let rr := packEntries digest rest
    ⟨r.blobs ++ rr.blobs, line ++ rr.obj, r.cnt + rr.cnt⟩
termination_by l => entsSize l
decreasing_by
  all_goals simp [entsSize]
  all_goals omega
end

/-- Result of `PackTree`: the complete blob stream, the root manifest, the
root checksum and the node count. -/
structure PackResult where
  stream : List String
  obj : String
  ck : String
  cnt : Nat

/-- Top-level packer `PackTree` (dfo.py lines 231-259): magic header blob,
sentinel root pair `('> .', '')`, recursive body, closing pair `('< .',
root manifest)`, and the root checksum as trailer blob. -/
def PackTree (digest : Digest) (es : List (String × Node)) : PackResult :=
  let r := packEntries digest (sortEntries es)
  ⟨"dfo--" :: "> ." :: "" :: (r.blobs ++ ["< .", r.obj, digest r.obj]),
   r.obj, digest r.obj, r.cnt⟩

mutual
/-- Number of nodes in a subtree, the node itself included. -/
def nodeCount : Node → Nat
  | .file _ _ => 1
  | .symlink _ => 1
  | .dir es => 1 + entsCount es

/-- Number of nodes below a listing. -/
def entsCount : List (String × Node) → Nat
  | [] => 0
  | (_, n) :: rest => nodeCount n + entsCount rest
end

mutual
/-- Number of directory nodes in a subtree, the node itself included when it
is a directory. -/
def dirCount : Node → Nat
  | .file _ _ => 0
  | .symlink _ => 0
  | .dir es => 1 + entsDirCount es

/-- Number of directory nodes below a listing. -/
def entsDirCount : List (String × Node) → Nat
  | [] => 0
  | (_, n) :: rest => dirCount n + entsDirCount rest
end

mutual
/-- Canonical form of a tree: every directory listing sorted by name.  Two
listing orders of the same on-disk tree have the same canonical form. -/
def canon : Node → Node
  | .file c x => .file c x
  | .symlink t => .symlink t
  | .dir es => .dir (sortEntries (canonEntries es))

/-- Canonical form of each node of a listing (the listing order is kept; the
enclosing `canon` sorts it). -/
def canonEntries : List (String × Node) → List (String × Node)
  | [] => []
  | (n, nd) :: rest => (n, canon nd) :: canonEntries rest
end

/-! SHA-1 (the concrete checksum engine used by the source through
`hashlib.sha1`), implemented on byte lists. -/

/-- Truncate to a 32-bit word. -/
def w32 (n : Nat) : Nat := n % 4294967296

/-- Rotate a 32-bit word left by `b` bits. -/
def rotl (b n : Nat) : Nat := w32 (n * 2 ^ b) + n / 2 ^ (32 - b)

/-- Big-endian 8-byte encoding of a length in bits. -/
def beBytes8 (n : Nat) : List Nat :=
  [n / 2 ^ 56 % 256, n / 2 ^ 48 % 256, n / 2 ^ 40 % 256, n / 2 ^ 32 % 256,
   n / 2 ^ 24 % 256, n / 2 ^ 16 % 256, n / 2 ^ 8 % 256, n % 256]

/-- SHA-1 message padding: append `0x80`, zero bytes to 56 mod 64, then the
bit length, big-endian. -/
def sha1Pad (msg : List Nat) : List Nat :=
  msg ++ 128 :: List.replicate ((119 - msg.length % 64) % 64) 0 ++ beBytes8 (8 * msg.length)

/-- Group bytes into big-endian 32-bit words. -/
def toWords : List Nat → List Nat
  | a :: b :: c :: d :: rest => (((a * 256 + b) * 256 + c) * 256 + d) :: toWords rest
  | _ => []

/-- Accumulating splitter for 64-byte blocks: `cur` holds the bytes of the
current block in reverse, `k` the number of slots left in it. -/
def toBlocksAux (cur : List Nat) (k : Nat) : List Nat → List (List Nat)
  | [] => [cur.reverse]
  | a :: rest =>
    match k with
    | 0 => cur.reverse :: toBlocksAux [a] 63 rest
    | k2 + 1 => toBlocksAux (a :: cur) k2 rest

/-- Split a byte list into 64-byte blocks. -/
def toBlocks : List Nat → List (List Nat)
  | [] => []
  | a :: rest => toBlocksAux [a] 63 rest

/-- Message-schedule expansion: append `k` more words, each
`rotl 1 (w[i-3] xor w[i-8] xor w[i-14] xor w[i-16])`. -/
def sha1Extend (ws : List Nat) : Nat → List Nat
  | 0 => ws
  | k + 1 =>
    let i := ws.length
    sha1Extend (ws ++ [rotl 1 (((ws.getD (i - 3) 0).xor (ws.getD (i - 8) 0)).xor
      ((ws.getD (i - 14) 0).xor (ws.getD (i - 16) 0)))]) k

/-- One SHA-1 compression round. -/
def sha1Round (st : Nat × Nat × Nat × Nat × Nat) (iw : Nat × Nat) :
    Nat × Nat × Nat × Nat × Nat :=
  let (a, b, c, d, e) := st
  let (i, w) := iw
  let f :=
    if i < 20 then ((b.land c).lor ((b.xor 4294967295).land d))
    else if i < 40 then (b.xor c).xor d
    else if i < 60 then ((b.land c).lor (b.land d)).lor (c.land d)
    else (b.xor c).xor d
  let k :=
    if i < 20 then 1518500249
    else if i < 40 then 1859775393
    else if i < 60 then 2400959708
    else 3395469782
  (w32 (rotl 5 a + f + e + k + w), a, rotl 30 b, c, d)

/-- Process one 64-byte block, updating the five state words. -/
def sha1Block (h : Nat × Nat × Nat × Nat × Nat) (block : List Nat) :
    Nat × Nat × Nat × Nat × Nat :=
  let (h0, h1, h2, h3, h4) := h
  let ws := sha1Extend (toWords block) 64
  let (a, b, c, d, e) := ws.enum.foldl sha1Round h
  (w32 (h0 + a), w32 (h1 + b), w32 (h2 + c), w32 (h3 + d), w32 (h4 + e))

/-- SHA-1 state words of a byte message. -/
def sha1Words (msg : List Nat) : Nat × Nat × Nat × Nat × Nat :=
  (toBlocks (sha1Pad msg)).foldl sha1Block
    (1732584193, 4023233417, 2562383102, 271733878, 3285377520)

/-- Lowercase hexadecimal digit. -/
def hexDigit (n : Nat) : Char :=
  Char.ofNat (if n < 10 then 48 + n else 87 + n)

/-- Eight lowercase hex digits of a 32-bit word, most significant first. -/
def hexWord (n : Nat) : List Char :=
  [hexDigit (n / 2 ^ 28 % 16), hexDigit (n / 2 ^ 24 % 16), hexDigit (n / 2 ^ 20 % 16),
   hexDigit (n / 2 ^ 16 % 16), hexDigit (n / 2 ^ 12 % 16), hexDigit (n / 2 ^ 8 % 16),
   hexDigit (n / 2 ^ 4 % 16), hexDigit (n % 16)]

/-- Bytes of a string (characters read as bytes, as in Python 2). -/
def strBytes (s : String) : List Nat := s.data.map (fun c => c.toNat % 256)

/-- `hashlib.sha1(s).hexdigest()`: the concrete digest function. -/
def sha1hex (s : String) : String :=
  let (h0, h1, h2, h3, h4) := sha1Words (strBytes s)
  String.mk (hexWord h0 ++ hexWord h1 ++ hexWord h2 ++ hexWord h3 ++ hexWord h4)

/-! String-splitting primitives used by the unpacker. -/

/-- Split a character list at its first space; `none` when there is no space
(where Python's tuple unpacking of `split(' ', 1)` raises ValueError). -/
def splitSp : List Char → Option (List Char × List Char)
  | [] => none
  | c :: rest =>
    if c = ' ' then some ([], rest)
    else
      match splitSp rest with
      | none => none
      | some (a, b) => some (c :: a, b)

/-- `op.split(' ', 1)` bound to exactly two fields (dfo.py line 361). -/
def splitFirstSpaceS (s : String) : Option (String × String) :=
  match splitSp s.data with
  | none => none
  | some (a, b) => some (String.mk a, String.mk b)

/-- `line.split(' ', 3)` bound to exactly four fields (dfo.py line 293). -/
def split3S (s : String) : Option (String × String × String × String) :=
  match splitSp s.data with
  | none => none
  | some (a, r1) =>
    match splitSp r1 with
    | none => none
    | some (b, r2) =>
      match splitSp r2 with
      | none => none
      | some (c, r3) => some (String.mk a, String.mk b, String.mk c, String.mk r3)

/-- Python 2 `str.splitlines` on byte strings: line boundaries are '\n',
'\r' and the pair '\r\n' (counted once); a trailing boundary does not
produce an empty final line. -/
def splitNl : List Char → List (List Char)
  | [] => []
  | [c] =>
    if c = '\n' then [[]]
    else if c = '\r' then [[]]
    else [[c]]
  | c :: d :: rest =>
    if c = '\n' then [] :: splitNl (d :: rest)
    else if c = '\r' then
      (if d = '\n' then [] :: splitNl rest else [] :: splitNl (d :: rest))
    else
      match splitNl (d :: rest) with
      | [] => [[c]]
      | l :: ls => (c :: l) :: ls

/-- String version of `splitNl` (`dir_obj.splitlines()`, dfo.py line 289). -/
def splitLinesS (s : String) : List String := (splitNl s.data).map String.mk

/-! Destination filesystem model. -/

/-- Destination filesystem node materialized by the unpacker.  Regular files
carry their full permission bits; directory and symlink modes are not
tracked by the format and not modelled. -/
inductive FSNode where
  | file (contents : String) (mode : Nat)
  | symlink (target : String)
  | dir (entries : List (String × FSNode))

/-- First binding of a name in a directory listing. -/
def lookupEntry : List (String × FSNode) → String → Option FSNode
  | [], _ => none
  | (k, v) :: rest, key => if k = key then some v else lookupEntry rest key

/-- Rewrite the first binding of a name in a directory listing. -/
def modEntry : List (String × FSNode) → String → (FSNode → FSNode) → List (String × FSNode)
  | [], _, _ => []
  | (k, v) :: rest, key, f =>
    if k = key then (k, f v) :: rest else (k, v) :: modEntry rest key f

/-- Resolve a path (list of names) from a node. -/
def fsFind : FSNode → List String → Option FSNode
  | n, [] => some n
  | .dir es, p :: ps =>
    match lookupEntry es p with
    | some n => fsFind n ps
    | none => none
  | _, _ :: _ => none

/-- Path-first worker for `fsMod`. -/
def fsModGo : List String → FSNode → (List (String × FSNode) → List (String × FSNode)) → FSNode
  | [], .dir es, f => .dir (f es)
  | q :: ps, .dir es, f => .dir (modEntry es q (fun n => fsModGo ps n f))
  | _, n, _ => n

/-- Rewrite the entry listing of the directory at a path (identity when the
path does not resolve to a directory). -/
def fsMod (fs : FSNode) (p : List String)
    (f : List (String × FSNode) → List (String × FSNode)) : FSNode :=
  fsModGo p fs f

/-- Apply a listing rewrite to a directory node, identity on other nodes. -/
def dirMap (f : List (String × FSNode) → List (String × FSNode)) : FSNode → FSNode
  | .dir es => .dir (f es)
  | n => n

/-! Unpacker and verifier. -/

/-- Fatal conditions of `_UnpackTree` / `Verifier` (RuntimeError, OSError and
attribute/index errors at the distinct raise sites of the source). -/
inductive Err where
  | headerEOF
  | badHeader (h : String)
  | invalidOp (op : String)
  | contentsEOF
  | invalidDirEntry (line : String)
  | invalidExecBit (s : String)
  | integrity
  | invalidCommand (c : String)
  | trailerEOF
  | stackUnderflow
  | noCurrent
  | osError

/-- Unpacker state: the destination tree, the working directory relative to
the destination root (`os.chdir` state), the verifier stack (`self.stack`,
head is the top and equals `self.current` while the stack is nonempty), the
detached `self.current` once the stack has emptied (`none` models the
initial Python `None`), and the depth counter `level`. -/
structure UState where
  fs : FSNode
  cwd : List String
  vstack : List (List (String × String))
  vcur : Option (List (String × String))
  level : Nat

/-- `Verifier.Push` (dfo.py lines 273-276): push a fresh collector; it
becomes `self.current`. -/
def vPush (st : UState) : UState :=
  { st with vstack := [] :: st.vstack }

/-- `Verifier.OnEntry` (dfo.py lines 324-326): append to `self.current`,
i.e. the stack top, or the detached list after the final pop;
`AttributeError` if `self.current` is still `None`. -/
def vOnEntry (st : UState) (e : String × String) : UState × Except Err Unit :=
  match st.vstack with
  | t :: r => ({ st with vstack := (t ++ [e]) :: r }, .ok ())
  | [] =>
    match st.vcur with
    | some l => ({ st with vcur := some (l ++ [e]) }, .ok ())
    | none => (st, .error .noCurrent)

/-- Effect of `mode | exec_mask` on one node, with
`exec_mask = S_IXUSR | S_IXGRP | S_IXOTH = 0o111` (dfo.py line 286): all
three execute bits are added to a file's mode.  Directory modes are
untracked here, and `chmod` through a symlink (it follows the target) is
not modelled; both leave the node unchanged. -/
def addExecNode : FSNode → FSNode
  | .file c mo => .file c (mo ||| 0o111)
  | other => other

/-- `os.chmod(name, os.lstat(name).st_mode | exec_mask)` (dfo.py lines
300-301).  A missing name is the `os.lstat` OSError. -/
def chmodAddExec (fs : FSNode) (cwd : List String) (name : String) : FSNode × Except Err Unit :=
  match fsFind fs (cwd ++ [name]) with
  | none => (fs, .error .osError)
  | some _ => (fsMod fs cwd (fun es => modEntry es name addExecNode), .ok ())

/-- The manifest-line loop of `Verifier.Pop` (dfo.py lines 288-305): parse
each line as `exec type checksum name` on single spaces, collect
`(name, checksum)` into `expected`, and apply the exec-bit chmod as lines
are read. -/
def popGo (fs : FSNode) (cwd : List String) :
    List String → List (String × String) → FSNode × Except Err (List (String × String))
  | [], acc => (fs, .ok acc)
  | line :: rest, acc =>
    match split3S line with
    | none => (fs, .error (.invalidDirEntry line))
    | some (execBit, _ty, expectedChecksum, name) =>
      let acc2 := acc ++ [(name, expectedChecksum)]
      if execBit = "x" then
        match chmodAddExec fs cwd name with
        | (fs2, .ok _) => popGo fs2 cwd rest acc2
        | (fs2, .error e) => (fs2, .error e)
      else if execBit = "-" then popGo fs cwd rest acc2
      else (fs, .error (.invalidExecBit execBit))

/-- `Verifier.Pop` (dfo.py lines 278-322): run the manifest-line loop, then
compare the expected list with `self.current`; on match pop the stack (the
popped list stays behind as the detached `self.current` when the stack
empties), on mismatch raise the integrity error. -/
def vPop (st : UState) (dirObj : String) : UState × Except Err Unit :=
  match popGo st.fs st.cwd (splitLinesS dirObj) [] with
  | (fs2, .error e) => ({ st with fs := fs2 }, .error e)
  | (fs2, .ok expected) =>
    let st2 := { st with fs := fs2 }
    match st2.vstack with
    | t :: r =>
      if expected = t then
        ({ st2 with vstack := r, vcur := if r.isEmpty then some t else st2.vcur }, .ok ())
      else (st2, .error .integrity)
    | [] =>
      match st2.vcur with
      | some l =>
        if expected = l then (st2, .error .stackUnderflow) else (st2, .error .integrity)
      | none => (st2, .error .integrity)

/-- `_MakeOneDir` (dfo.py lines 329-334): `os.mkdir`, swallowing the
already-exists error. -/
def fsMkdirOne (fs : FSNode) (cwd : List String) (name : String) : FSNode :=
  fsMod fs cwd (fun es =>
    if (lookupEntry es name).isSome then es else es ++ [(name, .dir [])])

/-- `open(name, 'w'); f.write(contents)` (dfo.py lines 396-397): create a
file with mode `0o666 &&& m` (the argument `m` stands for the complement of
the process umask) or truncate an existing regular file, keeping its mode.
Writing over an existing directory is the IsADirectoryError; writing through
an existing symlink (Python follows it) is not modelled and made an error. -/
def fsWriteFile (fs : FSNode) (cwd : List String) (name contents : String) (m : Nat) :
    FSNode × Except Err Unit :=
  match fsFind fs cwd with
  | some (.dir es) =>
    match lookupEntry es name with
    | some (.file _ mo) =>
      (fsMod fs cwd (fun c => modEntry c name (fun _ => .file contents mo)), .ok ())
    | some _ => (fs, .error .osError)
    | none => (fsMod fs cwd (fun c => c ++ [(name, .file contents (0o666 &&& m))]), .ok ())
  | _ => (fs, .error .osError)

/-- `os.symlink(contents, name)` with the already-exists error swallowed
(dfo.py lines 401-406): create the link, or leave an existing entry of any
kind untouched. -/
def fsSymlinkOp (fs : FSNode) (cwd : List String) (name target : String) : FSNode :=
  fsMod fs cwd (fun es =>
    if (lookupEntry es name).isSome then es else es ++ [(name, .symlink target)])

/-- The record loop of `_UnpackTree` (dfo.py lines 354-411), one iteration
per `(op, data)` blob pair.  Returns the final state and, on a clean exit of
the loop (`level == 0` break, or end of stream), the unread remainder of the
stream. -/
def unpackLoop (digest : Digest) (m : Nat) :
    List String → UState → UState × Except Err (List String)
  | [], st => (st, .ok [])
  | [op], st =>
    match splitFirstSpaceS op with
    | none => (st, .error (.invalidOp op))
    | some _ => (st, .error .contentsEOF)
  | op :: contents :: rest, st =>
    match splitFirstSpaceS op with
    | none => (st, .error (.invalidOp op))
    | some (command, name) =>
      let actualChecksum := digest contents
      if command = ">" then
        if name = "." then
          unpackLoop digest m rest { vPush st with level := st.level + 1 }
        else
          let fs2 := fsMkdirOne st.fs st.cwd name
          match fsFind fs2 (st.cwd ++ [name]) with
          | some (.dir _) =>
            unpackLoop digest m rest
              { vPush { st with fs := fs2, cwd := st.cwd ++ [name] } with
                  level := st.level + 1 }
          | _ => ({ st with fs := fs2 }, .error .osError)
      else if command = "<" then
        match vPop st contents with
        | (st2, .error e) => (st2, .error e)
        | (st2, .ok _) =>
          match vOnEntry st2 (name, actualChecksum) with
          | (st3, .error e) => (st3, .error e)
          | (st3, .ok _) =>
            let st4 := { st3 with level := st3.level - 1 }
            if st4.level = 0 then (st4, .ok rest)
            else if name = "." then unpackLoop digest m rest st4
            else unpackLoop digest m rest { st4 with cwd := st4.cwd.dropLast }
      else if command = "F" then
        match fsWriteFile st.fs st.cwd name contents m with
        | (fs2, .error e) => ({ st with fs := fs2 }, .error e)
        | (fs2, .ok _) =>
          match vOnEntry { st with fs := fs2 } (name, actualChecksum) with
          | (st2, .error e) => (st2, .error e)
          | (st2, .ok _) => unpackLoop digest m rest st2
      else if command = "L" then
        match vOnEntry { st with fs := fsSymlinkOp st.fs st.cwd name contents }
            (name, actualChecksum) with
        | (st2, .error e) => (st2, .error e)
        | (st2, .ok _) => unpackLoop digest m rest st2
      else (st, .error (.invalidCommand command))

/-- `_UnpackTree` (dfo.py lines 337-419): the destination directory (made by
`_MakeOneDir(dir); os.chdir(dir)`) is passed in as `destFs`; check the magic
header, run the record loop, then read one more blob — the expected root
checksum — and surface it unchecked.  Returns the final destination tree and
the surfaced trailer. -/
def _UnpackTree (digest : Digest) (m : Nat) (stream : List String) (destFs : FSNode) :
    FSNode × Except Err String :=
  match stream with
  | [] => (destFs, .error .headerEOF)
  | header :: rest =>
    if header = "dfo--" then
      match unpackLoop digest m rest ⟨destFs, [], [], none, 0⟩ with
      | (st, .error e) => (st.fs, .error e)
      | (st, .ok remaining) =>
        match remaining with
        | [] => (st.fs, .error .trailerEOF)
        | t :: _ => (st.fs, .ok t)
    else (destFs, .error (.badHeader header))

/-! Side conditions and specification-side descriptions of the unpacked
tree.  These close the definition part of the development. -/

/-- Well-formedness of the digest function: digests contain no space, no
newline and no carriage return, as is true of any `hexdigest()` output. -/
def DigestWF (digest : Digest) : Prop :=
  ∀ s : String, ∀ c ∈ (digest s).data, c ≠ ' ' ∧ c ≠ '\n' ∧ c ≠ '\r'

/-- Names `os.listdir` can return, minus names whose manifest line the
stream format cannot carry (an embedded '\n' or '\r' breaks the line at
`splitlines`): nonempty, not the sentinel `.`, not `..`, no newline, no
carriage return, no path separator. -/
def nameOk (n : String) : Bool :=
  !(n = "") && !(n = ".") && !(n = "..") && !(n.data.contains '\n')
    && !(n.data.contains '\r') && !(n.data.contains '/')

mutual
/-- Well-formed source node: every name below it is safe, sibling names are
distinct (a filesystem guarantee) and symlink targets are nonempty
(`os.symlink` rejects an empty target). -/
def nodeWF : Node → Bool
  | .file _ _ => true
  | .symlink t => !(t = "")
  | .dir es => entriesWF es

/-- Well-formed listing: safe pairwise-distinct names, well-formed nodes. -/
def entriesWF : List (String × Node) → Bool
  | [] => true
  | (n, nd) :: rest =>
    nameOk n && nodeWF nd && !((rest.map Prod.fst).contains n) && entriesWF rest
end

mutual
/-- Destination tree the unpacker materializes for a packed node, once the
enclosing pop has restored permissions: file modes are `0o666 &&& m` (`m`
abbreviates the complement of the umask at `open`) with all three execute
bits added when the packed owner-execute flag was set; directory listings
appear in the packer's sorted order. -/
def mirrorNode (m : Nat) : Node → FSNode
  | .file c x => .file c (if x then (0o666 &&& m) ||| 0o111 else 0o666 &&& m)
  | .symlink t => .symlink t
  | .dir es => .dir (mirrorEntries m (sortEntries es))
termination_by n => nodeSize n
decreasing_by
  simp_wf
  have hins : ∀ (p : String × Node) (l : List (String × Node)),
      entsSize (insertEntry p l) = 1 + nodeSize p.2 + entsSize l := by
    intro p l
    induction l with
    | nil => simp [insertEntry, entsSize]
    | cons q rest ih =>
      by_cases h : nameLe p.1 q.1 = true
      · simp [insertEntry, h, entsSize]
      · simp [insertEntry, h, entsSize, ih]
        omega
  have hsort : ∀ l, entsSize (sortEntries l) = entsSize l := by
    intro l
    induction l with
    | nil => rfl
    | cons p rest ih => simp [sortEntries, hins, entsSize, ih]
  simp [nodeSize, hsort]

/-- Mirror of each entry of an (already sorted) listing. -/
def mirrorEntries (m : Nat) : List (String × Node) → List (String × FSNode)
  | [] => []
  | (n, nd) :: rest => (n, mirrorNode m nd) :: mirrorEntries m rest
termination_by l => entsSize l
decreasing_by
  all_goals simp [entsSize]
  all_goals omega
end

/-- Destination node right after its own records have streamed but before
the enclosing directory's pop: files still carry the bare `open` mode
(`0o666 &&& m`, never executable); directories are already complete, their
own pop having run. -/
def preMirrorNode (m : Nat) : Node → FSNode
  | .file c _ => .file c (0o666 &&& m)
  | .symlink t => .symlink t
  | .dir es => mirrorNode m (.dir es)

/-- Pre-pop mirror of a listing. -/
def preMirrorEntries (m : Nat) (l : List (String × Node)) : List (String × FSNode) :=
  l.map (fun p => (p.1, preMirrorNode m p.2))

/-- Entries the verifier collects while a packed listing streams: each name
with its packed checksum, in stream order. -/
def packCollected (digest : Digest) (l : List (String × Node)) : List (String × String) :=
  l.map (fun p => (p.1, (packOne digest p.1 p.2).ck))

/-- One manifest line without its newline terminator: what
`dir_obj.splitlines()` hands to the pop loop. -/
def lineBody (digest : Digest) (p : String × Node) : String :=
  execFlag p.2 ++ " " ++ typeChar p.2 ++ " " ++ (packOne digest p.1 p.2).ck ++ " " ++ p.1

/-- One manifest line, newline included. -/
def manifestLine (digest : Digest) (p : String × Node) : String :=
  lineBody digest p ++ "\n"

/-- Names of the manifest lines whose exec field parses as `"x"`. -/
def xNames (lines : List String) : List String :=
  lines.filterMap (fun l =>
    match split3S l with
    | some (e, _, _, n) => if e = "x" then some n else none
    | none => none)

/-! Basic facts about the sorted listing. -/

theorem strLeChars_total (as bs : List Char) :
    strLeChars as bs = true ∨ strLeChars bs as = true := by
  induction as generalizing bs with
  | nil => left; rfl
  | cons a as ih =>
    cases bs with
    | nil => right; rfl
    | cons b bs =>
      rcases Nat.lt_trichotomy a.toNat b.toNat with h | h | h
      · left
        simp [strLeChars, h]
      · rcases ih bs with h2 | h2
        · left
          simp [strLeChars, h, h2]
        · right
          simp [strLeChars, h.symm, h2, Nat.lt_irrefl]
      · right
        simp [strLeChars, h]

theorem strLeChars_trans {as bs cs : List Char} (h1 : strLeChars as bs = true)
    (h2 : strLeChars bs cs = true) : strLeChars as cs = true := by
  induction as generalizing bs cs with
  | nil => rfl
  | cons a as ih =>
    cases bs with
    | nil => exact absurd h1 (by simp [strLeChars])
    | cons b bs =>
      cases cs with
      | nil => exact absurd h2 (by simp [strLeChars])
      | cons c cs =>
        simp only [strLeChars] at h1 h2 ⊢
        by_cases hab : a.toNat < b.toNat
        · simp [hab] at h1
          by_cases hbc : b.toNat < c.toNat
          · simp [show a.toNat < c.toNat from Nat.lt_trans hab hbc]
          · simp [hbc] at h2
            by_cases hbc2 : b.toNat = c.toNat
            · simp [show a.toNat < c.toNat from hbc2 ▸ hab]
            · simp [hbc2] at h2
        · simp [hab] at h1
          by_cases hab2 : a.toNat = b.toNat
          · simp [hab2] at h1
            by_cases hbc : b.toNat < c.toNat
            · simp [show a.toNat < c.toNat from hab2 ▸ hbc]
            · simp [hbc] at h2
              by_cases hbc2 : b.toNat = c.toNat
              · have hac : a.toNat = c.toNat := hab2.trans hbc2
                simp [hbc2] at h2
                simp [hac, Nat.lt_irrefl, ih h1 h2]
              · simp [hbc2] at h2
          · simp [hab2] at h1

theorem nameLe_total (a b : String) : nameLe a b = true ∨ nameLe b a = true :=
  strLeChars_total a.data b.data

theorem nameLe_trans {a b c : String} (h1 : nameLe a b = true) (h2 : nameLe b c = true) :
    nameLe a c = true :=
  strLeChars_trans h1 h2

theorem entsSize_insertEntry (p : String × Node) (l : List (String × Node)) :
    entsSize (insertEntry p l) = 1 + nodeSize p.2 + entsSize l := by
  induction l with
  | nil => simp [insertEntry, entsSize]
  | cons q rest ih =>
    by_cases h : nameLe p.1 q.1 = true
    · simp [insertEntry, h, entsSize]
    · simp [insertEntry, h, entsSize, ih]
      omega

theorem entsSize_sortEntries (l : List (String × Node)) :
    entsSize (sortEntries l) = entsSize l := by
  induction l with
  | nil => rfl
  | cons p rest ih => simp [sortEntries, entsSize_insertEntry, entsSize, ih]

theorem insertEntry_perm (p : String × Node) (l : List (String × Node)) :
    List.Perm (insertEntry p l) (p :: l) := by
  induction l with
  | nil => simp [insertEntry]
  | cons q rest ih =>
    by_cases h : nameLe p.1 q.1 = true
    · simp [insertEntry, h]
    · simp only [insertEntry, h, if_false]
      exact (ih.cons q).trans (List.Perm.swap p q rest)

theorem sortEntries_perm (l : List (String × Node)) : List.Perm (sortEntries l) l := by
  induction l with
  | nil => rfl
  | cons p rest ih => exact (insertEntry_perm p (sortEntries rest)).trans (ih.cons p)

theorem mem_sortEntries {q : String × Node} {l : List (String × Node)} :
    q ∈ sortEntries l ↔ q ∈ l := (sortEntries_perm l).mem_iff

theorem entsCount_insertEntry (p : String × Node) (l : List (String × Node)) :
    entsCount (insertEntry p l) = nodeCount p.2 + entsCount l := by
  induction l with
  | nil => simp [insertEntry, entsCount]
  | cons q rest ih =>
    by_cases h : nameLe p.1 q.1 = true
    · simp [insertEntry, h, entsCount]
    · simp [insertEntry, h, entsCount, ih]
      omega

theorem entsCount_sortEntries (l : List (String × Node)) :
    entsCount (sortEntries l) = entsCount l := by
  induction l with
  | nil => rfl
  | cons p rest ih => simp [sortEntries, entsCount_insertEntry, entsCount, ih]

theorem entsDirCount_insertEntry (p : String × Node) (l : List (String × Node)) :
    entsDirCount (insertEntry p l) = dirCount p.2 + entsDirCount l := by
  induction l with
  | nil => simp [insertEntry, entsDirCount]
  | cons q rest ih =>
    by_cases h : nameLe p.1 q.1 = true
    · simp [insertEntry, h, entsDirCount]
    · simp [insertEntry, h, entsDirCount, ih]
      omega

theorem entsDirCount_sortEntries (l : List (String × Node)) :
    entsDirCount (sortEntries l) = entsDirCount l := by
  induction l with
  | nil => rfl
  | cons p rest ih => simp [sortEntries, entsDirCount_insertEntry, entsDirCount, ih]

/-! Stream length. -/

mutual
theorem packOne_blobs_length (digest : Digest) (name : String) (n : Node) :
    (packOne digest name n).blobs.length = 2 * (nodeCount n + dirCount n) := by
  cases n with
  | file c x => simp [packOne, nodeCount, dirCount]
  | symlink t => simp [packOne, nodeCount, dirCount]
  | dir es =>
    have h := packEntries_blobs_length digest (sortEntries es)
    simp [packOne, nodeCount, dirCount, h, entsCount_sortEntries, entsDirCount_sortEntries]
    ring
termination_by nodeSize n
decreasing_by
  simp [nodeSize, entsSize_sortEntries]

theorem packEntries_blobs_length (digest : Digest) (l : List (String × Node)) :
    (packEntries digest l).blobs.length = 2 * (entsCount l + entsDirCount l) := by
  match l with
  | [] => simp [packEntries, entsCount, entsDirCount]
  | (name, node) :: rest =>
    have h1 := packOne_blobs_length digest name node
    have h2 := packEntries_blobs_length digest rest
    simp [packEntries, entsCount, entsDirCount, h1, h2]
    ring
termination_by entsSize l
decreasing_by
  all_goals simp [entsSize]
  all_goals omega
end

/-- C2 (amended): the stream has `2 * (N + D) + 2` blobs, where `N` counts
every node (the implicit root directory included) and `D` counts every
directory node (the root included): each file or symlink contributes one
`(opRecord, dataBlob)` pair, each directory two, plus header and trailer. -/
theorem pack_stream_length (digest : Digest) (es : List (String × Node)) :
    (PackTree digest es).stream.length
      = 2 * ((entsCount es + 1) + (entsDirCount es + 1)) + 2 := by
  simp [PackTree, packEntries_blobs_length, entsCount_sortEntries, entsDirCount_sortEntries]
  ring

/-- C2 counterexample: packing the empty tree (one node in total, the
implicit root) emits 6 blobs, not `2 * 1 + 2 = 4` as the claim states. -/
theorem pack_blob_count_claim_false :
    (PackTree (fun _ => "") []).stream.length ≠ 2 * (entsCount [] + 1) + 2 := by
  have h : (PackTree (fun _ => "") []).stream.length = 6 := by
    simp [PackTree, packEntries, sortEntries]
  simp [h, entsCount]

/-! Scenario B: packing one non-executable regular file. -/

/-- C6: packing a tree holding the single non-executable regular file
`a.txt` with contents `"hi\n"` produces the root manifest consisting of the
single line `"- F <sha1 of hi-newline> a.txt\n"` (with the concrete SHA-1
digest), and the root checksum is the digest of exactly that line. -/
theorem pack_single_file_scenario :
    sha1hex "hi\n" = "55ca6286e3e4f4fba5d0448333fa99fc5a404a73"
    ∧ (PackTree sha1hex [("a.txt", Node.file "hi\n" false)]).obj
        = "- F 55ca6286e3e4f4fba5d0448333fa99fc5a404a73 a.txt\n"
    ∧ (PackTree sha1hex [("a.txt", Node.file "hi\n" false)]).ck
        = sha1hex "- F 55ca6286e3e4f4fba5d0448333fa99fc5a404a73 a.txt\n" := by
  have hd : sha1hex "hi\n" = "55ca6286e3e4f4fba5d0448333fa99fc5a404a73" := by decide
  have hobj : (PackTree sha1hex [("a.txt", Node.file "hi\n" false)]).obj
      = "- F 55ca6286e3e4f4fba5d0448333fa99fc5a404a73 a.txt\n" := by
    simp [PackTree, packEntries, sortEntries, insertEntry, packOne, execFlag, typeChar, hd]
  have hck : (PackTree sha1hex [("a.txt", Node.file "hi\n" false)]).ck
      = sha1hex ((PackTree sha1hex [("a.txt", Node.file "hi\n" false)]).obj) := rfl
  exact ⟨hd, hobj, by rw [hck, hobj]⟩

/-! Determinism of the sorted traversal. -/

theorem insertEntry_pairwise {p : String × Node} {l : List (String × Node)}
    (h : l.Pairwise (fun a b => nameLe a.1 b.1 = true)) :
    (insertEntry p l).Pairwise (fun a b => nameLe a.1 b.1 = true) := by
  induction l with
  | nil => simp [insertEntry]
  | cons q rest ih =>
    rcases List.pairwise_cons.mp h with ⟨hq, hrest⟩
    by_cases hle : nameLe p.1 q.1 = true
    · simp only [insertEntry, hle, if_true]
      refine List.pairwise_cons.mpr ⟨?_, h⟩
      intro b hb
      rcases List.mem_cons.mp hb with rfl | hb2
      · exact hle
      · exact nameLe_trans hle (hq b hb2)
    · simp only [insertEntry, hle, if_false]
      refine List.pairwise_cons.mpr ⟨?_, ih hrest⟩
      intro b hb
      rcases List.mem_cons.mp ((insertEntry_perm p rest).mem_iff.mp hb) with rfl | hb2
      · exact (nameLe_total b.1 q.1).resolve_left hle
      · exact hq b hb2

theorem sortEntries_pairwise (l : List (String × Node)) :
    (sortEntries l).Pairwise (fun a b => nameLe a.1 b.1 = true) := by
  induction l with
  | nil => simp [sortEntries]
  | cons p rest ih => exact insertEntry_pairwise ih

theorem sortEntries_eq_self {l : List (String × Node)}
    (h : l.Pairwise (fun a b => nameLe a.1 b.1 = true)) : sortEntries l = l := by
  induction l with
  | nil => rfl
  | cons p rest ih =>
    rcases List.pairwise_cons.mp h with ⟨hp, hrest⟩
    rw [sortEntries, ih hrest]
    cases rest with
    | nil => rfl
    | cons q rest2 => simp [insertEntry, hp q (by simp)]

theorem sortEntries_idem (l : List (String × Node)) :
    sortEntries (sortEntries l) = sortEntries l :=
  sortEntries_eq_self (sortEntries_pairwise l)

theorem insertEntry_canon (p : String × Node) (l : List (String × Node)) :
    insertEntry (p.1, canon p.2) (canonEntries l) = canonEntries (insertEntry p l) := by
  induction l with
  | nil => simp [insertEntry, canonEntries]
  | cons q rest ih =>
    by_cases hle : nameLe p.1 q.1 = true
    · simp [canonEntries, insertEntry, hle]
    · simp [canonEntries, insertEntry, hle, ih]

theorem sortEntries_canonEntries (l : List (String × Node)) :
    sortEntries (canonEntries l) = canonEntries (sortEntries l) := by
  induction l with
  | nil => rfl
  | cons p rest ih => simp [sortEntries, canonEntries, ih, insertEntry_canon]

theorem execFlag_canon (n : Node) : execFlag (canon n) = execFlag n := by
  cases n with
  | file c x => cases x <;> rfl
  | symlink t => rfl
  | dir es => rfl

theorem typeChar_canon (n : Node) : typeChar (canon n) = typeChar n := by
  cases n <;> rfl

mutual
theorem packOne_canon (digest : Digest) (name : String) (n : Node) :
    packOne digest name (canon n) = packOne digest name n := by
  cases n with
  | file c x => rfl
  | symlink t => rfl
  | dir es =>
    have h : packEntries digest (canonEntries (sortEntries es))
        = packEntries digest (sortEntries es) :=
      packEntries_canonEntries digest (sortEntries es)
    calc packOne digest name (canon (.dir es))
        = packOne digest name (.dir (sortEntries (canonEntries es))) := by rw [canon]
      _ = packOne digest name (.dir es) := by
          rw [packOne, packOne, sortEntries_idem, sortEntries_canonEntries, h]
termination_by nodeSize n
decreasing_by
  simp [nodeSize, entsSize_sortEntries]

theorem packEntries_canonEntries (digest : Digest) (l : List (String × Node)) :
    packEntries digest (canonEntries l) = packEntries digest l := by
  match l with
  | [] => rfl
  | (name, node) :: rest =>
    have h1 := packOne_canon digest name node
    have h2 := packEntries_canonEntries digest rest
    rw [canonEntries, packEntries, packEntries, h1, h2, execFlag_canon, typeChar_canon]
termination_by entsSize l
decreasing_by
  all_goals simp [entsSize]
  all_goals omega
end

/-- C7: `Pack` is deterministic: two listing orders of the same unmodified
tree (same canonical form, i.e. the same names, contents and permission
flags once every directory listing is sorted) produce byte-identical output
streams, because `_PackTree` traverses each directory in sorted-by-name
order. -/
theorem pack_deterministic (digest : Digest) (es1 es2 : List (String × Node))
    (h : canon (.dir es1) = canon (.dir es2)) :
    PackTree digest es1 = PackTree digest es2 := by
  have hs : sortEntries (canonEntries es1) = sortEntries (canonEntries es2) := by
    have h2 : Node.dir (sortEntries (canonEntries es1))
        = Node.dir (sortEntries (canonEntries es2)) := by
      rw [canon, canon] at h
      exact h
    injection h2
  have key : packEntries digest (sortEntries es1) = packEntries digest (sortEntries es2) := by
    calc packEntries digest (sortEntries es1)
        = packEntries digest (canonEntries (sortEntries es1)) :=
          (packEntries_canonEntries digest (sortEntries es1)).symm
      _ = packEntries digest (sortEntries (canonEntries es1)) := by
          rw [sortEntries_canonEntries]
      _ = packEntries digest (sortEntries (canonEntries es2)) := by rw [hs]
      _ = packEntries digest (canonEntries (sortEntries es2)) := by
          rw [sortEntries_canonEntries]
      _ = packEntries digest (sortEntries es2) :=
          packEntries_canonEntries digest (sortEntries es2)
  simp [PackTree, key]

/-- Witness for C7: two listing orders of one two-file tree. -/
theorem pack_deterministic_witness :
    canon (.dir [("b", Node.file "y" false), ("a", Node.file "x" true)])
      = canon (.dir [("a", Node.file "x" true), ("b", Node.file "y" false)])
    ∧ PackTree (fun _ => "z") [("b", Node.file "y" false), ("a", Node.file "x" true)]
      = PackTree (fun _ => "z") [("a", Node.file "x" true), ("b", Node.file "y" false)] := by
  have h : canon (.dir [("b", Node.file "y" false), ("a", Node.file "x" true)])
      = canon (.dir [("a", Node.file "x" true), ("b", Node.file "y" false)]) := by
    simp [canon, canonEntries, sortEntries, insertEntry,
      show nameLe "b" "a" = false from rfl, show nameLe "a" "b" = true from rfl]
  exact ⟨h, pack_deterministic (fun _ => "z") _ _ h⟩

/-! Parsing facts. -/

theorem splitSp_none {l : List Char} (h : ' ' ∉ l) : splitSp l = none := by
  induction l with
  | nil => rfl
  | cons c rest ih =>
    have hc : ¬c = ' ' := fun e => h (e ▸ List.mem_cons_self c rest)
    simp [splitSp, hc, ih (fun hm => h (List.mem_cons_of_mem c hm))]

theorem splitFirstSpaceS_none {op : String} (h : ' ' ∉ op.data) :
    splitFirstSpaceS op = none := by
  simp [splitFirstSpaceS, splitSp_none h]

theorem splitSp_append {a b : List Char} (h : ' ' ∉ a) :
    splitSp (a ++ ' ' :: b) = some (a, b) := by
  induction a with
  | nil => simp [splitSp]
  | cons c rest ih =>
    have hc : ¬c = ' ' := fun e => h (e ▸ List.mem_cons_self c rest)
    simp [splitSp, hc, ih (fun hm => h (List.mem_cons_of_mem c hm))]

theorem stringMk_data (s : String) : String.mk s.data = s := rfl

theorem splitFirstSpaceS_cmd (c n : String) (h : ' ' ∉ c.data) :
    splitFirstSpaceS (c ++ " " ++ n) = some (c, n) := by
  have hd : (c ++ " " ++ n).data = c.data ++ ' ' :: n.data := by
    simp [String.data_append]
  simp [splitFirstSpaceS, hd, splitSp_append h, stringMk_data]

theorem splitFirstSpaceS_F (n : String) : splitFirstSpaceS ("F " ++ n) = some ("F", n) :=
  splitFirstSpaceS_cmd "F" n (by decide)

theorem splitFirstSpaceS_L (n : String) : splitFirstSpaceS ("L " ++ n) = some ("L", n) :=
  splitFirstSpaceS_cmd "L" n (by decide)

theorem splitFirstSpaceS_push (n : String) : splitFirstSpaceS ("> " ++ n) = some (">", n) :=
  splitFirstSpaceS_cmd ">" n (by decide)

theorem splitFirstSpaceS_pop (n : String) : splitFirstSpaceS ("< " ++ n) = some ("<", n) :=
  splitFirstSpaceS_cmd "<" n (by decide)

/-! Claim C8: malformed op record. -/

/-- C8: when the loop reads an op record containing no space separator, it
fails with the invalid-op-record error at once — the record's data blob is
not read and the state (in particular the destination tree) is returned
unchanged, so no file is written for that record. -/
theorem unpack_invalid_op (digest : Digest) (m : Nat) (op : String) (rest : List String)
    (st : UState) (h : ' ' ∉ op.data) :
    unpackLoop digest m (op :: rest) st = (st, .error (.invalidOp op)) := by
  cases rest with
  | nil => simp [unpackLoop, splitFirstSpaceS_none h]
  | cons c r => simp [unpackLoop, splitFirstSpaceS_none h]

/-- Witness for C8: the record `"Fname"` of the spec's scenario D. -/
theorem unpack_invalid_op_witness :
    ' ' ∉ ("Fname" : String).data
    ∧ unpackLoop (fun _ => "") 0 ["Fname", "data"] ⟨.dir [], [], [[]], none, 1⟩
        = (⟨.dir [], [], [[]], none, 1⟩, .error (.invalidOp "Fname")) := by
  have h : ' ' ∉ ("Fname" : String).data := by decide
  exact ⟨h, unpack_invalid_op (fun _ => "") 0 "Fname" ["data"] _ h⟩

/-! Claim C9: `F` records overwrite existing files. -/

/-- C9: an `F` record whose name already denotes a regular file in the
current destination directory silently truncates and rewrites that file with
the data blob (its permission bits stay), records the entry, and the loop
continues with no error — no already-exists condition exists for files,
unlike directory creation (`_MakeOneDir`) and symlink creation which catch
`EEXIST`. -/
theorem unpack_file_overwrite (digest : Digest) (m : Nat) (name contents : String)
    (rest : List String) (st : UState) (es : List (String × FSNode))
    (oldC : String) (oldM : Nat) (t : List (String × String))
    (vr : List (List (String × String)))
    (hfs : fsFind st.fs st.cwd = some (.dir es))
    (hlk : lookupEntry es name = some (.file oldC oldM))
    (hv : st.vstack = t :: vr) :
    unpackLoop digest m (("F " ++ name) :: contents :: rest) st
      = unpackLoop digest m rest
          { st with
              fs := fsMod st.fs st.cwd (fun c => modEntry c name (fun _ => .file contents oldM)),
              vstack := (t ++ [(name, digest contents)]) :: vr } := by
  have hw : fsWriteFile st.fs st.cwd name contents m
      = (fsMod st.fs st.cwd (fun c => modEntry c name (fun _ => .file contents oldM)), .ok ()) := by
    simp [fsWriteFile, hfs, hlk]
  simp [unpackLoop, splitFirstSpaceS_F, hw, vOnEntry, hv]

/-- Witness for C9: overwriting the file `a` (old contents `"old"`, mode
`0o744`) with the blob `"new"`; the mode survives, the contents do not. -/
theorem unpack_file_overwrite_witness :
    fsFind (FSNode.dir [("a", .file "old" 484)]) [] = some (.dir [("a", .file "old" 484)])
    ∧ lookupEntry [("a", FSNode.file "old" 484)] "a" = some (.file "old" 484)
    ∧ unpackLoop (fun _ => "k") 0 ["F a", "new"]
          ⟨.dir [("a", .file "old" 484)], [], [[]], none, 1⟩
        = unpackLoop (fun _ => "k") 0 []
            { fs := fsMod (FSNode.dir [("a", .file "old" 484)]) []
                      (fun c => modEntry c "a" (fun _ => .file "new" 484)),
              cwd := [], vstack := [[("a", "k")]], vcur := none, level := 1 } := by
  refine ⟨rfl, rfl, ?_⟩
  have h := unpack_file_overwrite (fun _ => "k") 0 "a" "new" []
    ⟨.dir [("a", .file "old" 484)], [], [[]], none, 1⟩
    [("a", .file "old" 484)] "old" 484 [] [] rfl rfl rfl
  exact h

/-! Filesystem algebra. -/

theorem lookup_modEntry_self (es : List (String × FSNode)) (k : String)
    (g : FSNode → FSNode) :
    lookupEntry (modEntry es k g) k = (lookupEntry es k).map g := by
  induction es with
  | nil => rfl
  | cons p rest ih =>
    rcases p with ⟨k2, v⟩
    by_cases h : k2 = k
    · simp [modEntry, lookupEntry, h]
    · simp [modEntry, lookupEntry, h, ih]

theorem lookup_modEntry_ne (es : List (String × FSNode)) {k k' : String}
    (g : FSNode → FSNode) (h : k' ≠ k) :
    lookupEntry (modEntry es k g) k' = lookupEntry es k' := by
  induction es with
  | nil => rfl
  | cons p rest ih =>
    rcases p with ⟨k2, v⟩
    by_cases h2 : k2 = k
    · subst h2
      simp [modEntry, lookupEntry, Ne.symm h]
    · by_cases h3 : k2 = k'
      · simp [modEntry, lookupEntry, h2, h3, h]
      · simp [modEntry, lookupEntry, h2, h3, ih]

theorem modEntry_congr (es : List (String × FSNode)) (k : String)
    {g g' : FSNode → FSNode} (h : ∀ v, g v = g' v) :
    modEntry es k g = modEntry es k g' := by
  induction es with
  | nil => rfl
  | cons p rest ih =>
    rcases p with ⟨k2, v⟩
    by_cases h2 : k2 = k
    · simp [modEntry, h2, h v]
    · simp [modEntry, h2, ih]

theorem modEntry_eq_of_lookup {es : List (String × FSNode)} {k : String} {v : FSNode}
    (hl : lookupEntry es k = some v) {g g' : FSNode → FSNode} (h : g v = g' v) :
    modEntry es k g = modEntry es k g' := by
  induction es with
  | nil => simp [lookupEntry] at hl
  | cons p rest ih =>
    rcases p with ⟨k2, w⟩
    by_cases h2 : k2 = k
    · simp [lookupEntry, h2] at hl
      simp [modEntry, h2, hl ▸ h]
    · simp [lookupEntry, h2] at hl
      simp [modEntry, h2, ih hl]

theorem modEntry_id_of_lookup {es : List (String × FSNode)} {k : String} {v : FSNode}
    (hl : lookupEntry es k = some v) {g : FSNode → FSNode} (h : g v = v) :
    modEntry es k g = es := by
  induction es with
  | nil => rfl
  | cons p rest ih =>
    rcases p with ⟨k2, w⟩
    by_cases h2 : k2 = k
    · simp [lookupEntry, h2] at hl
      simp [modEntry, h2, hl ▸ h]
    · simp [lookupEntry, h2] at hl
      simp [modEntry, h2, ih hl]

theorem modEntry_comp (es : List (String × FSNode)) (k : String)
    (g1 g2 : FSNode → FSNode) :
    modEntry (modEntry es k g1) k g2 = modEntry es k (fun v => g2 (g1 v)) := by
  induction es with
  | nil => rfl
  | cons p rest ih =>
    rcases p with ⟨k2, v⟩
    by_cases h2 : k2 = k
    · simp [modEntry, h2]
    · simp [modEntry, h2, ih]

theorem modEntry_append_of_lookup_none {es : List (String × FSNode)} {k : String}
    (h : lookupEntry es k = none) (l2 : List (String × FSNode)) (g : FSNode → FSNode) :
    modEntry (es ++ l2) k g = es ++ modEntry l2 k g := by
  induction es with
  | nil => rfl
  | cons p rest ih =>
    rcases p with ⟨k2, v⟩
    by_cases h2 : k2 = k
    · simp [lookupEntry, h2] at h
    · simp [lookupEntry, h2] at h
      simp [modEntry, h2, ih h]

theorem lookup_append (es l2 : List (String × FSNode)) (k : String) :
    lookupEntry (es ++ l2) k
      = match lookupEntry es k with
        | some v => some v
        | none => lookupEntry l2 k := by
  induction es with
  | nil => simp [lookupEntry]
  | cons p rest ih =>
    rcases p with ⟨k2, v⟩
    by_cases h2 : k2 = k
    · simp [lookupEntry, h2]
    · simp [lookupEntry, h2, ih]

theorem fsMod_nil_dir (es : List (String × FSNode)) (f) :
    fsMod (.dir es) [] f = .dir (f es) := rfl

theorem fsMod_cons_dir (es : List (String × FSNode)) (a : String) (p' : List String) (f) :
    fsMod (.dir es) (a :: p') f = .dir (modEntry es a (fun n => fsMod n p' f)) := rfl

theorem fsFind_append (fs : FSNode) (p q : List String) :
    fsFind fs (p ++ q) = (fsFind fs p).bind (fun nd => fsFind nd q) := by
  induction p generalizing fs with
  | nil => simp [fsFind]
  | cons a p' ih =>
    cases fs with
    | dir es =>
      simp only [List.cons_append, fsFind]
      cases lookupEntry es a with
      | none => simp
      | some n => simp [ih]
    | file c mo => simp [fsFind]
    | symlink t => simp [fsFind]

theorem fsFind_child {fs : FSNode} {cwd : List String} {es0 : List (String × FSNode)}
    (hc : fsFind fs cwd = some (.dir es0)) (name : String) :
    fsFind fs (cwd ++ [name]) = lookupEntry es0 name := by
  rw [fsFind_append, hc]
  cases hl : lookupEntry es0 name with
  | none => simp [fsFind, hl]
  | some v => simp [fsFind, hl]

theorem fsFind_parent {fs : FSNode} {cwd : List String} {name : String} {nd : FSNode}
    (h : fsFind fs (cwd ++ [name]) = some nd) :
    ∃ es0, fsFind fs cwd = some (.dir es0) ∧ lookupEntry es0 name = some nd := by
  rw [fsFind_append] at h
  cases hc : fsFind fs cwd with
  | none => rw [hc] at h; simp at h
  | some nd0 =>
    rw [hc] at h
    simp only [Option.some_bind] at h
    cases nd0 with
    | dir es0 =>
      refine ⟨es0, rfl, ?_⟩
      simp only [fsFind] at h
      cases hl : lookupEntry es0 name with
      | none => rw [hl] at h; exact absurd h (by simp)
      | some v =>
        rw [hl] at h
        simp only [fsFind] at h
        exact h
    | file c mo => simp [fsFind] at h
    | symlink t => simp [fsFind] at h

theorem fsFind_fsMod_self {fs : FSNode} {p : List String} {es0 : List (String × FSNode)}
    (h : fsFind fs p = some (.dir es0)) (f) :
    fsFind (fsMod fs p f) p = some (.dir (f es0)) := by
  induction p generalizing fs with
  | nil =>
    simp only [fsFind] at h
    cases h
    rfl
  | cons a p' ih =>
    cases fs with
    | dir es =>
      simp only [fsFind] at h
      cases hl : lookupEntry es a with
      | none => rw [hl] at h; exact absurd h (by simp)
      | some n =>
        rw [hl] at h
        rw [fsMod_cons_dir]
        simp only [fsFind, lookup_modEntry_self, hl, Option.map_some]
        exact ih h
    | file c mo => simp [fsFind] at h
    | symlink t => simp [fsFind] at h

theorem fsMod_fsMod {fs : FSNode} {p : List String} (f g) :
    fsMod (fsMod fs p f) p g = fsMod fs p (fun es => g (f es)) := by
  induction p generalizing fs with
  | nil => cases fs <;> rfl
  | cons a p' ih =>
    cases fs with
    | dir es =>
      rw [fsMod_cons_dir, fsMod_cons_dir, fsMod_cons_dir, modEntry_comp]
      exact congrArg FSNode.dir (modEntry_congr es a (fun v => ih))
    | file c mo => rfl
    | symlink t => rfl

theorem fsMod_const {fs : FSNode} {p : List String} {es0 : List (String × FSNode)}
    (h : fsFind fs p = some (.dir es0)) (f) :
    fsMod fs p f = fsMod fs p (fun _ => f es0) := by
  induction p generalizing fs with
  | nil =>
    simp only [fsFind] at h
    cases h
    rfl
  | cons a p' ih =>
    cases fs with
    | dir es =>
      simp only [fsFind] at h
      cases hl : lookupEntry es a with
      | none => rw [hl] at h; exact absurd h (by simp)
      | some n =>
        rw [hl] at h
        rw [fsMod_cons_dir, fsMod_cons_dir]
        exact congrArg FSNode.dir (modEntry_eq_of_lookup hl (ih h))
    | file c mo => simp [fsFind] at h
    | symlink t => simp [fsFind] at h

theorem fsMod_restore {fs : FSNode} {p : List String} {es0 : List (String × FSNode)}
    (h : fsFind fs p = some (.dir es0)) :
    fsMod fs p (fun _ => es0) = fs := by
  induction p generalizing fs with
  | nil =>
    simp only [fsFind] at h
    cases h
    rfl
  | cons a p' ih =>
    cases fs with
    | dir es =>
      simp only [fsFind] at h
      cases hl : lookupEntry es a with
      | none => rw [hl] at h; exact absurd h (by simp)
      | some n =>
        rw [hl] at h
        rw [fsMod_cons_dir]
        exact congrArg FSNode.dir (modEntry_id_of_lookup hl (ih h))
    | file c mo => simp [fsFind] at h
    | symlink t => simp [fsFind] at h

theorem fsMod_snoc (fs : FSNode) (p : List String) (n : String) (f) :
    fsMod fs (p ++ [n]) f = fsMod fs p (fun es => modEntry es n (dirMap f)) := by
  induction p generalizing fs with
  | nil =>
    cases fs with
    | dir es =>
      rw [List.nil_append, fsMod_cons_dir, fsMod_nil_dir]
      refine congrArg FSNode.dir (modEntry_congr es n ?_)
      intro v
      cases v <;> rfl
    | file c mo => rfl
    | symlink t => rfl
  | cons a p' ih =>
    cases fs with
    | dir es =>
      rw [List.cons_append, fsMod_cons_dir, fsMod_cons_dir]
      exact congrArg FSNode.dir (modEntry_congr es a (fun v => ih v))
    | file c mo => rfl
    | symlink t => rfl

/-! Claims C4, C10 and C3: the pop of the verifier. -/

/-- C4: when every manifest line of a pop parses and every chmod applies,
`Verifier.Pop` succeeds precisely when the ordered `(name, checksum)` list
parsed from the manifest equals the ordered collected list exactly — same
length, same order, same values — and any difference, a reordering of the
lines included, raises the integrity error instead. -/
theorem pop_exact_match (st : UState) (dirObj : String) (fs2 : FSNode)
    (expected t : List (String × String)) (r : List (List (String × String)))
    (hgo : popGo st.fs st.cwd (splitLinesS dirObj) [] = (fs2, .ok expected))
    (hv : st.vstack = t :: r) :
    (expected = t →
      vPop st dirObj
        = ({ st with
             fs := fs2
             vstack := r
             vcur := (if r.isEmpty then some t else st.vcur) }, .ok ()))
    ∧ (expected ≠ t →
      vPop st dirObj = ({ st with fs := fs2 }, .error .integrity)) := by
  constructor
  · intro h
    simp [vPop, hgo, hv, h]
  · intro h
    simp [vPop, hgo, hv, h]

/-- Witness for C4: a two-line manifest whose lines are reordered relative
to the collected order — the same set of entries — raises the integrity
error. -/
theorem pop_exact_match_witness :
    popGo (FSNode.dir []) [] (splitLinesS "- F cb b\n- F ca a\n") []
        = (FSNode.dir [], .ok [("b", "cb"), ("a", "ca")])
    ∧ ([("b", "cb"), ("a", "ca")] : List (String × String)) ≠ [("a", "ca"), ("b", "cb")]
    ∧ vPop ⟨.dir [], [], [[("a", "ca"), ("b", "cb")]], none, 1⟩ "- F cb b\n- F ca a\n"
        = (⟨.dir [], [], [[("a", "ca"), ("b", "cb")]], none, 1⟩, .error .integrity) := by
  refine ⟨rfl, by decide, ?_⟩
  exact (pop_exact_match ⟨.dir [], [], [[("a", "ca"), ("b", "cb")]], none, 1⟩
    "- F cb b\n- F ca a\n" (.dir []) [("b", "cb"), ("a", "ca")]
    [("a", "ca"), ("b", "cb")] [] rfl rfl).2 (by decide)

/-- C10: the manifest-line loop, chmods included, runs to completion before
the expected-versus-actual comparison, so when the comparison fails the
integrity error is returned together with the already-chmodded destination
tree: a failing pop leaves the permission changes behind and is not atomic
on error. -/
theorem pop_not_atomic (st : UState) (dirObj : String) (fs2 : FSNode)
    (expected t : List (String × String)) (r : List (List (String × String)))
    (hgo : popGo st.fs st.cwd (splitLinesS dirObj) [] = (fs2, .ok expected))
    (hv : st.vstack = t :: r) (hne : expected ≠ t) :
    vPop st dirObj = ({ st with fs := fs2 }, .error .integrity) := by
  simp [vPop, hgo, hv, hne]

/-- Witness for C10: a pop whose single `x` line chmods `f` from `0o644` to
`0o755` and whose comparison then fails — the integrity error carries the
modified tree, which differs from the initial one. -/
theorem pop_not_atomic_witness :
    popGo (FSNode.dir [("f", .file "v" 420)]) [] (splitLinesS "x F c f\n") []
        = (FSNode.dir [("f", .file "v" 493)], .ok [("f", "c")])
    ∧ ([("f", "c")] : List (String × String)) ≠ [("f", "other")]
    ∧ vPop ⟨.dir [("f", .file "v" 420)], [], [[("f", "other")]], none, 1⟩ "x F c f\n"
        = (⟨.dir [("f", .file "v" 493)], [], [[("f", "other")]], none, 1⟩, .error .integrity)
    ∧ FSNode.dir [("f", FSNode.file "v" 493)] ≠ FSNode.dir [("f", .file "v" 420)] := by
  refine ⟨rfl, by decide, ?_, by simp⟩
  exact pop_not_atomic ⟨.dir [("f", .file "v" 420)], [], [[("f", "other")]], none, 1⟩
    "x F c f\n" (.dir [("f", .file "v" 493)]) [("f", "c")] [("f", "other")] [] rfl rfl
    (by decide)

/-- C3 counterexample: a pop processing the single manifest line
`"x F c f"` on a file of mode `0o644` (420) leaves it with mode `0o755`
(493) — group- and other-execute added — while the claim predicts
`0o644 ||| 0o100 = 0o744` (484), only the owner bit. -/
theorem pop_chmod_claim_false :
    (popGo (FSNode.dir [("f", .file "v" 420)]) [] ["x F c f"] []).1
        = FSNode.dir [("f", .file "v" 493)]
    ∧ (493 : Nat) ≠ 420 ||| 64 := by
  exact ⟨rfl, by decide⟩

theorem xNames_cons_x {line : String} {e0 ty ck n : String} (rest : List String)
    (hs : split3S line = some (e0, ty, ck, n)) (hx : e0 = "x") :
    xNames (line :: rest) = n :: xNames rest := by
  simp [xNames, List.filterMap_cons, hs, hx]

theorem xNames_cons_notx {line : String} {e0 ty ck n : String} (rest : List String)
    (hs : split3S line = some (e0, ty, ck, n)) (hx : e0 ≠ "x") :
    xNames (line :: rest) = xNames rest := by
  simp [xNames, List.filterMap_cons, hs, hx]

theorem lor_exec_idem (a : Nat) : (a ||| 73) ||| 73 = a ||| 73 := by
  rw [Nat.or_assoc, Nat.or_self]

/-- C3 (amended): at pop time, for every manifest line whose exec field is
`x` the verifier sets the owner-, group- AND other-executable bits
(`mode | 0o111`) on the already-materialized file of that name, and it
changes nothing else about the directory's files: a file named by some `x`
line ends with mode `oldMode ||| 0o111` and unchanged contents, and a file
named by no `x` line keeps mode and contents exactly. -/
theorem pop_chmod_all_exec (lines : List String) (cwd : List String) :
    ∀ (fs fs2 : FSNode) (acc expected : List (String × String)),
    popGo fs cwd lines acc = (fs2, .ok expected) →
    ∀ (name oldC : String) (oldM : Nat),
    fsFind fs (cwd ++ [name]) = some (.file oldC oldM) →
    fsFind fs2 (cwd ++ [name])
      = some (.file oldC (if name ∈ xNames lines then oldM ||| 73 else oldM)) := by
  induction lines with
  | nil =>
    intro fs fs2 acc expected hgo name oldC oldM hf
    simp only [popGo] at hgo
    rcases hgo with ⟨rfl, rfl⟩
    simp [xNames, hf]
  | cons line rest ih =>
    intro fs fs2 acc expected hgo name oldC oldM hf
    simp only [popGo] at hgo
    split at hgo
    · exact absurd hgo (by simp)
    · rename_i e0 ty ck n hs
      split at hgo
      · rename_i hx
        split at hgo
        · rename_i fs3 a heq2
          cases hf2 : fsFind fs (cwd ++ [n]) with
          | none =>
            simp only [chmodAddExec, hf2] at heq2
            exact absurd heq2 (by simp)
          | some nd =>
            simp only [chmodAddExec, hf2] at heq2
            injection heq2 with h3 h4
            subst h3
            obtain ⟨es0, hc, hlk⟩ := fsFind_parent hf
            by_cases hn : n = name
            · subst hn
              have hlk2 : lookupEntry es0 n = some (.file oldC oldM) := hlk
              have hnew : fsFind (fsMod fs cwd (fun es => modEntry es n addExecNode))
                  (cwd ++ [n]) = some (.file oldC (oldM ||| 73)) := by
                rw [fsFind_child (fsFind_fsMod_self hc _) n, lookup_modEntry_self, hlk2]
                rfl
              have hres := ih _ _ _ _ hgo n oldC (oldM ||| 73) hnew
              rw [hres, xNames_cons_x rest hs hx]
              by_cases hm : n ∈ xNames rest
              · simp [hm, lor_exec_idem]
              · simp [hm]
            · have hkeep : fsFind (fsMod fs cwd (fun es => modEntry es n addExecNode))
                  (cwd ++ [name]) = some (.file oldC oldM) := by
                rw [fsFind_child (fsFind_fsMod_self hc _) name,
                  lookup_modEntry_ne es0 addExecNode (Ne.symm hn), hlk]
              have hres := ih _ _ _ _ hgo name oldC oldM hkeep
              rw [hres, xNames_cons_x rest hs hx]
              by_cases hm : name ∈ xNames rest
              · simp [hm]
              · simp [hm, Ne.symm hn]
        · rename_i fs3 e heq2
          exact absurd hgo (by simp)
      · rename_i hx
        split at hgo
        · rename_i hd
          have hres := ih _ _ _ _ hgo name oldC oldM hf
          rw [hres, xNames_cons_notx rest hs hx]
        · exact absurd hgo (by simp)

/-- Witness for the amended C3: a pop with one `x` line for `g` and one `-`
line for `f`: `g` gains exactly the three execute bits, `f` is untouched. -/
theorem pop_chmod_all_exec_witness :
    popGo (FSNode.dir [("f", .file "u" 420), ("g", .file "v" 420)]) []
        ["x F c g", "- F c2 f"] []
      = (FSNode.dir [("f", .file "u" 420), ("g", .file "v" 493)],
         .ok [("g", "c"), ("f", "c2")])
    ∧ fsFind (FSNode.dir [("f", .file "u" 420), ("g", .file "v" 420)]) ["g"]
        = some (.file "v" 420)
    ∧ fsFind (FSNode.dir [("f", .file "u" 420), ("g", .file "v" 493)]) ["g"]
        = some (.file "v" (if "g" ∈ xNames ["x F c g", "- F c2 f"] then 420 ||| 73 else 420))
    ∧ fsFind (FSNode.dir [("f", .file "u" 420), ("g", .file "v" 493)]) ["f"]
        = some (.file "u" (if "f" ∈ xNames ["x F c g", "- F c2 f"] then 420 ||| 73 else 420)) := by
  refine ⟨rfl, rfl, ?_, ?_⟩
  · exact pop_chmod_all_exec ["x F c g", "- F c2 f"] []
      (FSNode.dir [("f", .file "u" 420), ("g", .file "v" 420)])
      (FSNode.dir [("f", .file "u" 420), ("g", .file "v" 493)])
      [] [("g", "c"), ("f", "c2")] rfl "g" "v" 420 rfl
  · exact pop_chmod_all_exec ["x F c g", "- F c2 f"] []
      (FSNode.dir [("f", .file "u" 420), ("g", .file "v" 420)])
      (FSNode.dir [("f", .file "u" 420), ("g", .file "v" 493)])
      [] [("g", "c"), ("f", "c2")] rfl "f" "u" 420 rfl

/-! Well-formedness transfer. -/

theorem contains_false {α : Type} [BEq α] [LawfulBEq α] (l : List α) (a : α) :
    (l.contains a = false) ↔ a ∉ l := by
  constructor
  · intro h hm
    exact Bool.noConfusion (h.symm.trans (List.elem_iff.mpr hm))
  · intro h
    cases hc : l.contains a
    · rfl
    · exact absurd (List.elem_iff.mp hc) h

theorem nameOk_spec {n : String} (h : nameOk n = true) :
    n ≠ "" ∧ n ≠ "." ∧ n ≠ ".." ∧ '\n' ∉ n.data ∧ '\r' ∉ n.data ∧ '/' ∉ n.data := by
  simp only [nameOk, Bool.and_eq_true, Bool.not_eq_true', decide_eq_false_iff_not,
    contains_false] at h
  exact ⟨h.1.1.1.1.1, h.1.1.1.1.2, h.1.1.1.2, h.1.1.2, h.1.2, h.2⟩

theorem entriesWF_cons {n : String} {nd : Node} {rest : List (String × Node)}
    (h : entriesWF ((n, nd) :: rest) = true) :
    nameOk n = true ∧ nodeWF nd = true ∧ n ∉ rest.map Prod.fst ∧ entriesWF rest = true := by
  simp only [entriesWF, Bool.and_eq_true, Bool.not_eq_true', contains_false,
    decide_eq_false_iff_not] at h
  exact ⟨h.1.1.1, h.1.1.2, h.1.2, h.2⟩

theorem entriesWF_iff (l : List (String × Node)) :
    entriesWF l = true
      ↔ (∀ p ∈ l, nameOk p.1 = true ∧ nodeWF p.2 = true) ∧ (l.map Prod.fst).Nodup := by
  induction l with
  | nil => simp [entriesWF]
  | cons p rest ih =>
    rcases p with ⟨n, nd⟩
    simp only [entriesWF, Bool.and_eq_true, Bool.not_eq_true', contains_false,
      decide_eq_false_iff_not, ih, List.map_cons, List.nodup_cons, List.mem_cons]
    constructor
    · rintro ⟨⟨⟨h1, h2⟩, h3⟩, h4, h5⟩
      refine ⟨?_, h3, h5⟩
      rintro q (rfl | hq)
      · exact ⟨h1, h2⟩
      · exact h4 q hq
    · rintro ⟨hall, h3, h5⟩
      exact ⟨⟨hall (n, nd) (Or.inl rfl), h3⟩, fun q hq => hall q (Or.inr hq), h5⟩

theorem entriesWF_of_perm {l l' : List (String × Node)} (hp : List.Perm l l')
    (h : entriesWF l = true) : entriesWF l' = true := by
  rw [entriesWF_iff] at h ⊢
  exact ⟨fun p hm => h.1 p (hp.mem_iff.mpr hm), ((hp.map Prod.fst).nodup_iff).mp h.2⟩

theorem entriesWF_sortEntries {l : List (String × Node)} (h : entriesWF l = true) :
    entriesWF (sortEntries l) = true :=
  entriesWF_of_perm (sortEntries_perm l).symm h

/-! Manifest serialization and parsing. -/

theorem splitNl_nl (rest : List Char) : splitNl ('\n' :: rest) = [] :: splitNl rest := by
  cases rest <;> simp [splitNl]

theorem splitNl_cons_ne {c : Char} (h1 : c ≠ '\n') (h2 : c ≠ '\r') (rest : List Char) :
    splitNl (c :: rest)
      = match splitNl rest with
        | [] => [[c]]
        | l :: ls => (c :: l) :: ls := by
  cases rest with
  | nil => simp [splitNl, h1, h2]
  | cons d t => simp [splitNl, h1, h2]

/-- Sanity check against Python 2 byte-string `splitlines`: lines break at
'\n', at '\r', and once at the pair '\r\n'; a trailing boundary yields no
empty final line. -/
theorem splitLinesS_python2_cases :
    splitLinesS "a\rb" = ["a", "b"] ∧ splitLinesS "a\r\nb" = ["a", "b"]
    ∧ splitLinesS "a\n\rb" = ["a", "", "b"] ∧ splitLinesS "a\r" = ["a"]
    ∧ splitLinesS "a\r\n" = ["a"] ∧ splitLinesS "- F ck a\rb\n" = ["- F ck a", "b"] := by
  decide

theorem splitNl_append {l : List Char} (h : '\n' ∉ l) (hr : '\r' ∉ l) (rest : List Char) :
    splitNl (l ++ '\n' :: rest) = l :: splitNl rest := by
  induction l with
  | nil => simp [splitNl_nl]
  | cons c l' ih =>
    have hc : c ≠ '\n' := fun e => h (e ▸ List.mem_cons_self c l')
    have hcr : c ≠ '\r' := fun e => hr (e ▸ List.mem_cons_self c l')
    have h' : '\n' ∉ l' := fun hm => h (List.mem_cons_of_mem c hm)
    have hr' : '\r' ∉ l' := fun hm => hr (List.mem_cons_of_mem c hm)
    rw [List.cons_append, splitNl_cons_ne hc hcr, ih h' hr']

theorem packOne_ck (digest : Digest) (name : String) (nd : Node) :
    ∃ s, (packOne digest name nd).ck = digest s := by
  cases nd with
  | file c x => exact ⟨c, by simp [packOne]⟩
  | symlink t => exact ⟨t, by simp [packOne]⟩
  | dir es => exact ⟨(packEntries digest (sortEntries es)).obj, by simp [packOne]⟩

theorem ck_wf {digest : Digest} (hd : DigestWF digest) (name : String) (nd : Node) :
    ' ' ∉ ((packOne digest name nd).ck).data ∧ '\n' ∉ ((packOne digest name nd).ck).data
      ∧ '\r' ∉ ((packOne digest name nd).ck).data := by
  obtain ⟨s, hs⟩ := packOne_ck digest name nd
  rw [hs]
  exact ⟨fun hm => (hd s _ hm).1 rfl, fun hm => (hd s _ hm).2.1 rfl,
    fun hm => (hd s _ hm).2.2 rfl⟩

theorem flag_wf (s : String) (hs : s = "x" ∨ s = "-" ∨ s = "F" ∨ s = "L" ∨ s = "D") :
    ' ' ∉ s.data ∧ '\n' ∉ s.data ∧ '\r' ∉ s.data := by
  rcases hs with rfl | rfl | rfl | rfl | rfl <;> exact ⟨by decide, by decide, by decide⟩

theorem execFlag_wf (nd : Node) :
    ' ' ∉ (execFlag nd).data ∧ '\n' ∉ (execFlag nd).data ∧ '\r' ∉ (execFlag nd).data := by
  refine flag_wf _ ?_
  cases nd with
  | file c x => cases x
                · exact Or.inr (Or.inl rfl)
                · exact Or.inl rfl
  | symlink t => exact Or.inr (Or.inl rfl)
  | dir es => exact Or.inr (Or.inl rfl)

theorem typeChar_wf (nd : Node) :
    ' ' ∉ (typeChar nd).data ∧ '\n' ∉ (typeChar nd).data ∧ '\r' ∉ (typeChar nd).data := by
  refine flag_wf _ ?_
  cases nd with
  | file c x => exact Or.inr (Or.inr (Or.inl rfl))
  | symlink t => exact Or.inr (Or.inr (Or.inr (Or.inl rfl)))
  | dir es => exact Or.inr (Or.inr (Or.inr (Or.inr rfl)))

theorem split3S_line (e ty ck n : String) (he : ' ' ∉ e.data) (hty : ' ' ∉ ty.data)
    (hck : ' ' ∉ ck.data) :
    split3S (e ++ " " ++ ty ++ " " ++ ck ++ " " ++ n) = some (e, ty, ck, n) := by
  have hd : (e ++ " " ++ ty ++ " " ++ ck ++ " " ++ n).data
      = e.data ++ ' ' :: (ty.data ++ ' ' :: (ck.data ++ ' ' :: n.data)) := by
    simp [String.data_append]
  simp [split3S, hd, splitSp_append he, splitSp_append hty, splitSp_append hck, stringMk_data]

theorem split3S_lineBody {digest : Digest} (hd : DigestWF digest) (p : String × Node) :
    split3S (lineBody digest p)
      = some (execFlag p.2, typeChar p.2, (packOne digest p.1 p.2).ck, p.1) :=
  split3S_line _ _ _ _ (execFlag_wf p.2).1 (typeChar_wf p.2).1 (ck_wf hd p.1 p.2).1

theorem lineBody_no_newline {digest : Digest} (hd : DigestWF digest) {p : String × Node}
    (hn : nameOk p.1 = true) :
    '\n' ∉ (lineBody digest p).data ∧ '\r' ∉ (lineBody digest p).data := by
  have hdata : (lineBody digest p).data
      = (execFlag p.2).data ++ [' '] ++ (typeChar p.2).data ++ [' ']
        ++ ((packOne digest p.1 p.2).ck).data ++ [' '] ++ p.1.data := by
    simp [lineBody, String.data_append]
  rw [hdata]
  constructor
  · intro hm
    simp only [List.mem_append, List.mem_singleton] at hm
    rcases hm with ((((((hm | hm) | hm) | hm) | hm) | hm) | hm)
    · exact (execFlag_wf p.2).2.1 hm
    · exact absurd hm (by decide)
    · exact (typeChar_wf p.2).2.1 hm
    · exact absurd hm (by decide)
    · exact (ck_wf hd p.1 p.2).2.1 hm
    · exact absurd hm (by decide)
    · exact (nameOk_spec hn).2.2.2.1 hm
  · intro hm
    simp only [List.mem_append, List.mem_singleton] at hm
    rcases hm with ((((((hm | hm) | hm) | hm) | hm) | hm) | hm)
    · exact (execFlag_wf p.2).2.2 hm
    · exact absurd hm (by decide)
    · exact (typeChar_wf p.2).2.2 hm
    · exact absurd hm (by decide)
    · exact (ck_wf hd p.1 p.2).2.2 hm
    · exact absurd hm (by decide)
    · exact (nameOk_spec hn).2.2.2.2.1 hm

theorem packEntries_obj (digest : Digest) (n : String) (nd : Node)
    (rest : List (String × Node)) :
    (packEntries digest ((n, nd) :: rest)).obj
      = lineBody digest (n, nd) ++ "\n" ++ (packEntries digest rest).obj := by
  simp [packEntries, lineBody, String.append_assoc]

theorem splitLinesS_obj (digest : Digest) (hd : DigestWF digest) :
    ∀ es : List (String × Node), (∀ p ∈ es, nameOk p.1 = true) →
    splitLinesS ((packEntries digest es).obj) = es.map (lineBody digest) := by
  intro es
  induction es with
  | nil =>
    intro _
    simp [packEntries, splitLinesS, splitNl]
  | cons p rest ih =>
    intro hall
    rcases p with ⟨n, nd⟩
    rw [packEntries_obj]
    have hnl : '\n' ∉ (lineBody digest (n, nd)).data ∧ '\r' ∉ (lineBody digest (n, nd)).data :=
      lineBody_no_newline hd (hall (n, nd) (by simp))
    have hdata : (lineBody digest (n, nd) ++ "\n" ++ (packEntries digest rest).obj).data
        = (lineBody digest (n, nd)).data ++ '\n' :: ((packEntries digest rest).obj).data := by
      simp [String.data_append]
    rw [splitLinesS, hdata, splitNl_append hnl.1 hnl.2]
    have ih2 := ih (fun q hq => hall q (List.mem_cons_of_mem _ hq))
    rw [splitLinesS] at ih2
    simp [stringMk_data, ih2]

/-! A pop over a packed manifest. -/

theorem execFlag_eq_x {nd : Node} (h : execFlag nd = "x") : ∃ c, nd = .file c true := by
  cases nd with
  | file c x =>
    cases x with
    | true => exact ⟨c, rfl⟩
    | false => exact absurd h (by simp [execFlag])
  | symlink t => exact absurd h (by simp [execFlag])
  | dir es => exact absurd h (by simp [execFlag])

theorem execFlag_eq_dash {nd : Node} (h : execFlag nd ≠ "x") : execFlag nd = "-" := by
  cases nd with
  | file c x =>
    cases x with
    | true => exact absurd rfl h
    | false => rfl
  | symlink t => rfl
  | dir es => rfl

theorem preMirror_eq_mirror {m : Nat} {nd : Node} (h : execFlag nd ≠ "x") :
    preMirrorNode m nd = mirrorNode m nd := by
  cases nd with
  | file c x =>
    cases x with
    | true => exact absurd rfl h
    | false => simp [preMirrorNode, mirrorNode]
  | symlink t => simp [preMirrorNode, mirrorNode]
  | dir es => simp [preMirrorNode]

theorem mirrorEntries_cons (m : Nat) (n : String) (nd : Node) (rest : List (String × Node)) :
    mirrorEntries m ((n, nd) :: rest) = (n, mirrorNode m nd) :: mirrorEntries m rest := by
  simp [mirrorEntries]

theorem mirrorEntries_nil (m : Nat) : mirrorEntries m [] = [] := by
  simp [mirrorEntries]

theorem addExec_pm (m : Nat) (c : String) :
    addExecNode (preMirrorNode m (.file c true)) = mirrorNode m (.file c true) := by
  simp [addExecNode, preMirrorNode, mirrorNode]

theorem popGo_pack (digest : Digest) (m : Nat) (hd : DigestWF digest) :
    ∀ (es : List (String × Node)) (fs : FSNode) (p : List String)
      (P : List (String × FSNode)) (acc : List (String × String)),
    entriesWF es = true →
    fsFind fs p = some (.dir (P ++ preMirrorEntries m es)) →
    (∀ q ∈ es, lookupEntry P q.1 = none) →
    popGo fs p (es.map (lineBody digest)) acc
      = (fsMod fs p (fun _ => P ++ mirrorEntries m es), .ok (acc ++ packCollected digest es)) := by
  intro es
  induction es with
  | nil =>
    intro fs p P acc hwf hfs hfresh
    have h1 : fsMod fs p (fun _ => P ++ mirrorEntries m []) = fs := by
      have he : (fun (_ : List (String × FSNode)) => P ++ mirrorEntries m []) = fun _ => P := by
        funext z
        simp [mirrorEntries_nil]
      rw [he]
      exact fsMod_restore (by simpa [preMirrorEntries] using hfs)
    simp only [List.map_nil, popGo, packCollected, List.append_nil, h1]
  | cons q rest ih =>
    rcases q with ⟨n, nd⟩
    intro fs p P acc hwf hfs hfresh
    obtain ⟨hname, hnode, hnodup, hrest⟩ := entriesWF_cons hwf
    have hfreshrest : ∀ q2 ∈ rest, q2.1 ≠ n := by
      intro q2 hq2 he
      exact hnodup (he ▸ List.mem_map_of_mem Prod.fst hq2)
    have hpm : P ++ preMirrorEntries m ((n, nd) :: rest)
        = P ++ (n, preMirrorNode m nd) :: preMirrorEntries m rest := rfl
    simp only [List.map_cons, popGo, split3S_lineBody hd (n, nd)]
    by_cases hx : execFlag nd = "x"
    · obtain ⟨c, rfl⟩ := execFlag_eq_x hx
      rw [if_pos hx]
      have hfind : fsFind fs (p ++ [n]) = some (.file c (0o666 &&& m)) := by
        rw [fsFind_child hfs n, lookup_append, hfresh (n, .file c true) (by simp)]
        simp [preMirrorEntries, lookupEntry, preMirrorNode]
      simp only [chmodAddExec, hfind]
      have hfs2 : fsFind (fsMod fs p (fun es2 => modEntry es2 n addExecNode)) p
          = some (.dir ((P ++ [(n, mirrorNode m (.file c true))])
              ++ preMirrorEntries m rest)) := by
        rw [fsFind_fsMod_self hfs]
        rw [hpm, modEntry_append_of_lookup_none (hfresh (n, .file c true) (by simp))]
        simp [modEntry, addExec_pm]
      have hfresh2 : ∀ q2 ∈ rest, lookupEntry (P ++ [(n, mirrorNode m (.file c true))]) q2.1
          = none := by
        intro q2 hq2
        rw [lookup_append, hfresh q2 (List.mem_cons_of_mem _ hq2)]
        simp [lookupEntry, (hfreshrest q2 hq2).symm]
      have happ := ih (fsMod fs p (fun es2 => modEntry es2 n addExecNode)) p
        (P ++ [(n, mirrorNode m (.file c true))])
        (acc ++ [(n, (packOne digest n (.file c true)).ck)]) hrest hfs2 hfresh2
      rw [happ, fsMod_fsMod]
      simp only [Prod.mk.injEq]
      constructor
      · simp [mirrorEntries_cons, List.append_assoc]
      · simp [packCollected, List.append_assoc]
    · rw [if_neg hx, if_pos (execFlag_eq_dash hx)]
      have hfs2 : fsFind fs p
          = some (.dir ((P ++ [(n, mirrorNode m nd)]) ++ preMirrorEntries m rest)) := by
        rw [hfs, hpm, preMirror_eq_mirror hx, List.append_cons]
      have hfresh2 : ∀ q2 ∈ rest, lookupEntry (P ++ [(n, mirrorNode m nd)]) q2.1 = none := by
        intro q2 hq2
        rw [lookup_append, hfresh q2 (List.mem_cons_of_mem _ hq2)]
        simp [lookupEntry, (hfreshrest q2 hq2).symm]
      have happ := ih fs p (P ++ [(n, mirrorNode m nd)])
        (acc ++ [(n, (packOne digest n nd).ck)]) hrest hfs2 hfresh2
      rw [happ]
      simp only [Prod.mk.injEq]
      constructor
      · simp [mirrorEntries_cons, List.append_assoc]
      · simp [packCollected, List.append_assoc]

/-! Unfolding equations for the packer. -/

theorem packOne_file (digest : Digest) (name c : String) (x : Bool) :
    packOne digest name (.file c x) = ⟨["F " ++ name, c], digest c, 1⟩ := by
  simp [packOne]

theorem packOne_symlink (digest : Digest) (name target : String) :
    packOne digest name (.symlink target) = ⟨["L " ++ name, target], digest target, 1⟩ := by
  simp [packOne]

theorem packOne_dir (digest : Digest) (name : String) (es : List (String × Node)) :
    packOne digest name (.dir es)
      = ⟨("> " ++ name) :: "" :: ((packEntries digest (sortEntries es)).blobs
            ++ ["< " ++ name, (packEntries digest (sortEntries es)).obj]),
         digest (packEntries digest (sortEntries es)).obj,
         (packEntries digest (sortEntries es)).cnt + 1⟩ := by
  simp [packOne]

theorem packEntries_nil (digest : Digest) : packEntries digest [] = ⟨[], "", 0⟩ := by
  simp [packEntries]

theorem packEntries_cons (digest : Digest) (n : String) (nd : Node)
    (rest : List (String × Node)) :
    packEntries digest ((n, nd) :: rest)
      = ⟨(packOne digest n nd).blobs ++ (packEntries digest rest).blobs,
         lineBody digest (n, nd) ++ "\n" ++ (packEntries digest rest).obj,
         (packOne digest n nd).cnt + (packEntries digest rest).cnt⟩ := by
  simp [packEntries, lineBody, String.append_assoc]

/-! Loop steps for fresh file and symlink records. -/

theorem unpack_step_file_fresh (digest : Digest) (m : Nat) (name contents : String)
    (rest : List String) (st : UState) (cur : List (String × FSNode))
    (t : List (String × String)) (vr : List (List (String × String)))
    (hfs : fsFind st.fs st.cwd = some (.dir cur))
    (hlk : lookupEntry cur name = none)
    (hv : st.vstack = t :: vr) :
    unpackLoop digest m (("F " ++ name) :: contents :: rest) st
      = unpackLoop digest m rest
          { st with
            fs := fsMod st.fs st.cwd (fun _ => cur ++ [(name, .file contents (0o666 &&& m))])
            vstack := (t ++ [(name, digest contents)]) :: vr } := by
  have hw : fsWriteFile st.fs st.cwd name contents m
      = (fsMod st.fs st.cwd (fun c => c ++ [(name, .file contents (0o666 &&& m))]), .ok ()) := by
    simp [fsWriteFile, hfs, hlk]
  have hconst : fsMod st.fs st.cwd (fun c => c ++ [(name, FSNode.file contents (0o666 &&& m))])
      = fsMod st.fs st.cwd (fun _ => cur ++ [(name, FSNode.file contents (0o666 &&& m))]) :=
    fsMod_const hfs _
  simp [unpackLoop, splitFirstSpaceS_F, hw, hconst, vOnEntry, hv]

theorem unpack_step_symlink_fresh (digest : Digest) (m : Nat) (name target : String)
    (rest : List String) (st : UState) (cur : List (String × FSNode))
    (t : List (String × String)) (vr : List (List (String × String)))
    (hfs : fsFind st.fs st.cwd = some (.dir cur))
    (hlk : lookupEntry cur name = none)
    (hv : st.vstack = t :: vr) :
    unpackLoop digest m (("L " ++ name) :: target :: rest) st
      = unpackLoop digest m rest
          { st with
            fs := fsMod st.fs st.cwd (fun _ => cur ++ [(name, .symlink target)])
            vstack := (t ++ [(name, digest target)]) :: vr } := by
  have hsym : fsSymlinkOp st.fs st.cwd name target
      = fsMod st.fs st.cwd (fun _ => cur ++ [(name, .symlink target)]) := by
    rw [fsSymlinkOp, fsMod_const hfs]
    simp [hlk]
  simp [unpackLoop, splitFirstSpaceS_L, hsym, vOnEntry, hv]

/-! Loop step for a fresh directory-open record. -/

theorem unpack_step_push_fresh (digest : Digest) (m : Nat) (name : String)
    (rest : List String) (st : UState) (cur : List (String × FSNode))
    (t : List (String × String)) (vr : List (List (String × String)))
    (hfs : fsFind st.fs st.cwd = some (.dir cur))
    (hlk : lookupEntry cur name = none)
    (hv : st.vstack = t :: vr)
    (hne : ¬name = ".") :
    unpackLoop digest m (("> " ++ name) :: "" :: rest) st
      = unpackLoop digest m rest
          { st with
            fs := fsMod st.fs st.cwd (fun _ => cur ++ [(name, .dir [])])
            cwd := st.cwd ++ [name]
            vstack := [] :: t :: vr
            level := st.level + 1 } := by
  have hmk : fsMkdirOne st.fs st.cwd name
      = fsMod st.fs st.cwd (fun _ => cur ++ [(name, .dir [])]) := by
    rw [fsMkdirOne, fsMod_const hfs]
    simp [hlk]
  have hchd : fsFind (fsMod st.fs st.cwd (fun _ => cur ++ [(name, FSNode.dir [])]))
      (st.cwd ++ [name]) = some (.dir []) := by
    rw [fsFind_child (fsFind_fsMod_self hfs _) name, lookup_append, hlk]
    simp [lookupEntry]
  simp [unpackLoop, splitFirstSpaceS_push, hne, hmk, hchd, vPush, hv]

/-- Loop step for a non-root directory-close record that verifies cleanly. -/
theorem unpack_step_pop (digest : Digest) (m : Nat) (name obj : String) (rest : List String)
    (st st2 : UState) (t : List (String × String)) (vr : List (List (String × String)))
    (hpop : vPop st obj = (st2, .ok ()))
    (hv2 : st2.vstack = t :: vr)
    (hlv : ¬st2.level - 1 = 0)
    (hne : ¬name = ".") :
    unpackLoop digest m (("< " ++ name) :: obj :: rest) st
      = unpackLoop digest m rest
          { st2 with
            vstack := (t ++ [(name, digest obj)]) :: vr
            level := st2.level - 1
            cwd := st2.cwd.dropLast } := by
  simp [unpackLoop, splitFirstSpaceS_pop, hpop, vOnEntry, hv2, hlv, hne]

/-! Soundness of the unpack loop over a packed subtree, by strong induction
on the subtree size. -/

theorem packSound (digest : Digest) (m : Nat) (hd : DigestWF digest) :
    ∀ K : Nat,
    (∀ (name : String) (nd : Node), nodeSize nd ≤ K →
      ∀ (st : UState) (cur : List (String × FSNode)) (t : List (String × String))
        (vr : List (List (String × String))) (rest : List String),
      nameOk name = true → nodeWF nd = true →
      fsFind st.fs st.cwd = some (.dir cur) →
      lookupEntry cur name = none →
      st.vstack = t :: vr →
      1 ≤ st.level →
      unpackLoop digest m ((packOne digest name nd).blobs ++ rest) st
        = unpackLoop digest m rest
            { st with
              fs := fsMod st.fs st.cwd (fun _ => cur ++ [(name, preMirrorNode m nd)])
              vstack := (t ++ [(name, (packOne digest name nd).ck)]) :: vr })
    ∧ (∀ es : List (String × Node), entsSize es ≤ K →
      ∀ (st : UState) (cur : List (String × FSNode)) (t : List (String × String))
        (vr : List (List (String × String))) (rest : List String),
      entriesWF es = true →
      fsFind st.fs st.cwd = some (.dir cur) →
      (∀ q ∈ es, lookupEntry cur q.1 = none) →
      st.vstack = t :: vr →
      1 ≤ st.level →
      unpackLoop digest m ((packEntries digest es).blobs ++ rest) st
        = unpackLoop digest m rest
            { st with
              fs := fsMod st.fs st.cwd (fun _ => cur ++ preMirrorEntries m es)
              vstack := (t ++ packCollected digest es) :: vr }) := by
  intro K
  induction K using Nat.strong_induction_on with
  | _ K IH =>
    constructor
    · intro name nd hsz st cur t vr rest hname hnode hfs hlk hv hlev
      cases nd with
      | file c x =>
        rw [packOne_file]
        rw [show (["F " ++ name, c] ++ rest) = ("F " ++ name) :: c :: rest from rfl]
        rw [unpack_step_file_fresh digest m name c rest st cur t vr hfs hlk hv]
        rfl
      | symlink tg =>
        rw [packOne_symlink]
        rw [show (["L " ++ name, tg] ++ rest) = ("L " ++ name) :: tg :: rest from rfl]
        rw [unpack_step_symlink_fresh digest m name tg rest st cur t vr hfs hlk hv]
        rfl
      | dir es0 =>
        have hwfs : entriesWF (sortEntries es0) = true :=
          entriesWF_sortEntries (by simpa [nodeWF] using hnode)
        have hne : ¬name = "." := (nameOk_spec hname).2.1
        have hlt : entsSize (sortEntries es0) < K := by
          simp only [nodeSize] at hsz
          rw [entsSize_sortEntries]
          omega
        rw [packOne_dir]
        have hshape : ((("> " ++ name) :: "" :: ((packEntries digest (sortEntries es0)).blobs
              ++ ["< " ++ name, (packEntries digest (sortEntries es0)).obj])) ++ rest)
            = ("> " ++ name) :: "" :: ((packEntries digest (sortEntries es0)).blobs
                ++ (("< " ++ name) :: (packEntries digest (sortEntries es0)).obj :: rest)) := by
          simp
        rw [hshape]
        rw [unpack_step_push_fresh digest m name _ st cur t vr hfs hlk hv hne]
        have hchd : fsFind (fsMod st.fs st.cwd (fun _ => cur ++ [(name, FSNode.dir [])]))
            (st.cwd ++ [name]) = some (.dir []) := by
          rw [fsFind_child (fsFind_fsMod_self hfs _) name, lookup_append, hlk]
          simp [lookupEntry]
        rw [(IH _ hlt).2 (sortEntries es0) (le_refl _)
          { st with
            fs := fsMod st.fs st.cwd (fun _ => cur ++ [(name, .dir [])])
            cwd := st.cwd ++ [name]
            vstack := [] :: t :: vr
            level := st.level + 1 }
          [] [] (t :: vr) (("< " ++ name) :: (packEntries digest (sortEntries es0)).obj :: rest)
          hwfs hchd (fun q _ => rfl) rfl (Nat.succ_le_succ (Nat.zero_le _))]
        have hnames : ∀ p ∈ sortEntries es0, nameOk p.1 = true :=
          fun p hp => (((entriesWF_iff (sortEntries es0)).mp hwfs).1 p hp).1
        have hsplit : splitLinesS ((packEntries digest (sortEntries es0)).obj)
            = (sortEntries es0).map (lineBody digest) :=
          splitLinesS_obj digest hd (sortEntries es0) hnames
        have hfind2 : fsFind (fsMod
              (fsMod st.fs st.cwd (fun _ => cur ++ [(name, FSNode.dir [])]))
              (st.cwd ++ [name]) (fun _ => [] ++ preMirrorEntries m (sortEntries es0)))
            (st.cwd ++ [name])
            = some (.dir ([] ++ preMirrorEntries m (sortEntries es0))) :=
          fsFind_fsMod_self hchd _
        have hgo := popGo_pack digest m hd (sortEntries es0) _ (st.cwd ++ [name]) [] []
          hwfs hfind2 (fun q _ => rfl)
        have hfs4 : fsMod (fsMod
              (fsMod st.fs st.cwd (fun _ => cur ++ [(name, FSNode.dir [])]))
              (st.cwd ++ [name]) (fun _ => [] ++ preMirrorEntries m (sortEntries es0)))
              (st.cwd ++ [name]) (fun _ => [] ++ mirrorEntries m (sortEntries es0))
            = fsMod st.fs st.cwd
                (fun _ => cur ++ [(name, preMirrorNode m (.dir es0))]) := by
          rw [fsMod_fsMod, fsMod_snoc,
            fsMod_const (fsFind_fsMod_self hfs (fun _ => cur ++ [(name, FSNode.dir [])])),
            fsMod_fsMod]
          congr 1
          funext z
          rw [modEntry_append_of_lookup_none hlk]
          simp [modEntry, dirMap, preMirrorNode, mirrorNode]
        have hpop : vPop
            { st with
              fs := fsMod (fsMod st.fs st.cwd (fun _ => cur ++ [(name, FSNode.dir [])]))
                      (st.cwd ++ [name]) (fun _ => [] ++ preMirrorEntries m (sortEntries es0))
              cwd := st.cwd ++ [name]
              vstack := ([] ++ packCollected digest (sortEntries es0)) :: t :: vr
              level := st.level + 1 }
            ((packEntries digest (sortEntries es0)).obj)
          = ({ st with
               fs := fsMod st.fs st.cwd (fun _ => cur ++ [(name, preMirrorNode m (.dir es0))])
               cwd := st.cwd ++ [name]
               vstack := t :: vr
               level := st.level + 1 }, .ok ()) := by
          simp only [vPop, hsplit]
          rw [hgo]
          simp only [List.nil_append] at hfs4
          simp [hfs4]
        rw [unpack_step_pop digest m name _ rest _ _ t vr hpop rfl
          (by show ¬st.level + 1 - 1 = 0; omega) hne]
        congr 1
        simp [UState.mk.injEq, packOne_dir, List.dropLast_concat]
    · intro es hsz st cur t vr rest hwf hfs hfresh hv hlev
      cases es with
      | nil =>
        rw [packEntries_nil]
        have h1 : fsMod st.fs st.cwd (fun _ => cur ++ preMirrorEntries m []) = st.fs := by
          have he : (fun (_ : List (String × FSNode)) => cur ++ preMirrorEntries m
              ([] : List (String × Node))) = fun _ => cur := by
            funext z
            simp [preMirrorEntries]
          rw [he]
          exact fsMod_restore hfs
        have h2 : ((t ++ packCollected digest []) :: vr : List (List (String × String)))
            = st.vstack := by
          simp [packCollected, hv]
        rw [List.nil_append]
        conv_rhs => rw [h1, h2]
      | cons p rest2 =>
        rcases p with ⟨n, nd⟩
        obtain ⟨hname, hnode, hnodup, hrest⟩ := entriesWF_cons hwf
        have h1 : nodeSize nd < K := by
          simp only [entsSize] at hsz
          omega
        have h2 : entsSize rest2 < K := by
          simp only [entsSize] at hsz
          omega
        rw [packEntries_cons]
        rw [show ((packOne digest n nd).blobs ++ (packEntries digest rest2).blobs) ++ rest
            = (packOne digest n nd).blobs ++ ((packEntries digest rest2).blobs ++ rest) from by
          simp]
        rw [(IH _ h1).1 n nd (le_refl _) st cur t vr _ hname hnode hfs
          (hfresh (n, nd) (by simp)) hv hlev]
        have hfs1 : fsFind (fsMod st.fs st.cwd (fun _ => cur ++ [(n, preMirrorNode m nd)]))
            st.cwd = some (.dir (cur ++ [(n, preMirrorNode m nd)])) :=
          fsFind_fsMod_self hfs _
        have hfresh1 : ∀ q ∈ rest2,
            lookupEntry (cur ++ [(n, preMirrorNode m nd)]) q.1 = none := by
          intro q hq
          rw [lookup_append, hfresh q (List.mem_cons_of_mem _ hq)]
          have hne : ¬n = q.1 := by
            intro he
            exact hnodup (he ▸ List.mem_map_of_mem Prod.fst hq)
          simp [lookupEntry, hne]
        rw [(IH _ h2).2 rest2 (le_refl _)
          { st with
            fs := fsMod st.fs st.cwd (fun _ => cur ++ [(n, preMirrorNode m nd)])
            vstack := (t ++ [(n, (packOne digest n nd).ck)]) :: vr }
          (cur ++ [(n, preMirrorNode m nd)]) (t ++ [(n, (packOne digest n nd).ck)]) vr rest
          hrest hfs1 hfresh1 rfl hlev]
        congr 1
        simp only [fsMod_fsMod, UState.mk.injEq]
        refine ⟨?_, ?_⟩
        · congr 1
          funext z
          simp [preMirrorEntries, List.append_assoc]
        · simp [packCollected, List.append_assoc]

theorem entriesSound (digest : Digest) (m : Nat) (hd : DigestWF digest)
    (es : List (String × Node)) (st : UState) (cur : List (String × FSNode))
    (t : List (String × String)) (vr : List (List (String × String))) (rest : List String)
    (hwf : entriesWF es = true)
    (hfs : fsFind st.fs st.cwd = some (.dir cur))
    (hfresh : ∀ q ∈ es, lookupEntry cur q.1 = none)
    (hv : st.vstack = t :: vr)
    (hlev : 1 ≤ st.level) :
    unpackLoop digest m ((packEntries digest es).blobs ++ rest) st
      = unpackLoop digest m rest
          { st with
            fs := fsMod st.fs st.cwd (fun _ => cur ++ preMirrorEntries m es)
            vstack := (t ++ packCollected digest es) :: vr } :=
  (packSound digest m hd (entsSize es)).2 es (le_refl _) st cur t vr rest hwf hfs hfresh hv hlev

/-! Whole-stream round trip. -/

theorem unpack_pack_core (digest : Digest) (m : Nat) (hd : DigestWF digest)
    (es : List (String × Node)) (hwf : entriesWF es = true) (extra : List String) :
    unpackLoop digest m
        ("> ." :: "" :: ((packEntries digest (sortEntries es)).blobs
          ++ ("< ." :: (packEntries digest (sortEntries es)).obj :: extra)))
        ⟨.dir [], [], [], none, 0⟩
      = (⟨.dir (mirrorEntries m (sortEntries es)), [], [],
          some (packCollected digest (sortEntries es)
            ++ [(".", digest ((packEntries digest (sortEntries es)).obj))]), 0⟩,
         .ok extra) := by
  have hwfs : entriesWF (sortEntries es) = true := entriesWF_sortEntries hwf
  have hsp1 : splitFirstSpaceS "> ." = some (">", ".") := by decide
  have hsp2 : splitFirstSpaceS "< ." = some ("<", ".") := by decide
  have hstep1 : unpackLoop digest m
      ("> ." :: "" :: ((packEntries digest (sortEntries es)).blobs
        ++ ("< ." :: (packEntries digest (sortEntries es)).obj :: extra)))
      ⟨.dir [], [], [], none, 0⟩
      = unpackLoop digest m
        ((packEntries digest (sortEntries es)).blobs
          ++ ("< ." :: (packEntries digest (sortEntries es)).obj :: extra))
        ⟨.dir [], [], [[]], none, 1⟩ := by
    simp [unpackLoop, hsp1, vPush]
  rw [hstep1]
  rw [entriesSound digest m hd (sortEntries es) ⟨.dir [], [], [[]], none, 1⟩ [] [] []
    ("< ." :: (packEntries digest (sortEntries es)).obj :: extra)
    hwfs rfl (fun q _ => rfl) rfl (le_refl 1)]
  have hnames : ∀ p ∈ sortEntries es, nameOk p.1 = true :=
    fun p hp => (((entriesWF_iff (sortEntries es)).mp hwfs).1 p hp).1
  have hsplit : splitLinesS ((packEntries digest (sortEntries es)).obj)
      = (sortEntries es).map (lineBody digest) :=
    splitLinesS_obj digest hd (sortEntries es) hnames
  have hfind : fsFind (FSNode.dir ([] ++ preMirrorEntries m (sortEntries es))) []
      = some (.dir ([] ++ preMirrorEntries m (sortEntries es))) := rfl
  have hgo := popGo_pack digest m hd (sortEntries es)
    (FSNode.dir ([] ++ preMirrorEntries m (sortEntries es))) [] [] []
    hwfs hfind (fun q _ => rfl)
  simp only [List.nil_append] at hgo
  simp [unpackLoop, hsp2, vPop, hsplit, hgo, fsMod_nil_dir, vOnEntry]

/-- Unpacking a packed body whose trailer blob was replaced by any blob
`t0`: the loop materializes the mirrored tree and the trailer read surfaces
`t0`unchanged. -/
theorem unpack_header_body (digest : Digest) (m : Nat) (hd : DigestWF digest)
    (es : List (String × Node)) (hwf : entriesWF es = true) (t0 : String)
    (more : List String) :
    _UnpackTree digest m
        ("dfo--" :: "> ." :: "" :: ((packEntries digest (sortEntries es)).blobs
          ++ ("< ." :: (packEntries digest (sortEntries es)).obj :: t0 :: more)))
        (.dir [])
      = (mirrorNode m (.dir es), .ok t0) := by
  rw [_UnpackTree]
  rw [if_pos rfl]
  rw [unpack_pack_core digest m hd es hwf (t0 :: more)]
  simp [mirrorNode]

/-- C1: unpacking the stream produced by packing a well-formed tree (listing
names are real `os.listdir` names without embedded newlines, sibling names
distinct, symlink targets nonempty) into a fresh destination directory
succeeds and reproduces the tree exactly as `mirrorNode` describes it: the
same names (in sorted order), the same file contents and symlink targets,
every file mode `0o666 &&& m` (the `open` default, never
owner-executable) with all execute bits added exactly when the packed
owner-executable flag was set — so content, structure and the
owner-executable flag survive, and only untracked metadata (timestamps,
ownership, non-owner permission bits) differs.  The surfaced trailer is the
packed root checksum. -/
theorem pack_unpack_roundtrip (digest : Digest) (m : Nat) (es : List (String × Node))
    (hd : DigestWF digest) (hwf : entriesWF es = true) :
    _UnpackTree digest m (PackTree digest es).stream (.dir [])
      = (mirrorNode m (.dir es), .ok (PackTree digest es).ck) := by
  have hshape : (PackTree digest es).stream
      = "dfo--" :: "> ." :: "" :: ((packEntries digest (sortEntries es)).blobs
          ++ ("< ." :: (packEntries digest (sortEntries es)).obj
              :: digest ((packEntries digest (sortEntries es)).obj) :: [])) := by
    simp [PackTree]
  rw [hshape]
  rw [unpack_header_body digest m hd es hwf _ []]
  simp [PackTree]

/-- Witness for C1: a digest-independent round trip of a small tree with an
executable file, a plain file and a symlink inside a subdirectory, unpacked
with `m = 0o777` (umask 0). -/
theorem pack_unpack_roundtrip_witness :
    DigestWF (fun _ => "")
    ∧ entriesWF [("b", Node.file "hi" true),
        ("d", Node.dir [("s", Node.symlink "b"), ("a", Node.file "v" false)])] = true
    ∧ _UnpackTree (fun _ => "") 511
        (PackTree (fun _ => "") [("b", Node.file "hi" true),
          ("d", Node.dir [("s", Node.symlink "b"), ("a", Node.file "v" false)])]).stream
        (.dir [])
      = (mirrorNode 511 (.dir [("b", Node.file "hi" true),
          ("d", Node.dir [("s", Node.symlink "b"), ("a", Node.file "v" false)])]),
         .ok (PackTree (fun _ => "") [("b", Node.file "hi" true),
          ("d", Node.dir [("s", Node.symlink "b"), ("a", Node.file "v" false)])]).ck) := by
  have hd : DigestWF (fun _ => "") := by
    intro s c hc
    exact absurd hc (by simp [String.data])
  have hwf : entriesWF [("b", Node.file "hi" true),
      ("d", Node.dir [("s", Node.symlink "b"), ("a", Node.file "v" false)])] = true := by
    simp [entriesWF, nodeWF, nameOk]
  exact ⟨hd, hwf, pack_unpack_roundtrip (fun _ => "") 511 _ hd hwf⟩

/-- C5: the trailer blob is read only after the body loop has finished every
per-directory verification, and it is surfaced to the caller without being
compared to the computed root checksum: replacing the trailer by any blob
`t0` still materializes the tree faithfully and returns `t0` itself. -/
theorem unpack_trailer_unchecked (digest : Digest) (m : Nat) (es : List (String × Node))
    (t0 : String) (hd : DigestWF digest) (hwf : entriesWF es = true) :
    _UnpackTree digest m ((PackTree digest es).stream.dropLast ++ [t0]) (.dir [])
      = (mirrorNode m (.dir es), .ok t0) := by
  have hdrop : (PackTree digest es).stream.dropLast
      = "dfo--" :: "> ." :: "" :: ((packEntries digest (sortEntries es)).blobs
          ++ ("< ." :: (packEntries digest (sortEntries es)).obj :: [])) := by
    have hshape : (PackTree digest es).stream
        = ("dfo--" :: "> ." :: "" :: ((packEntries digest (sortEntries es)).blobs
            ++ ("< ." :: (packEntries digest (sortEntries es)).obj :: [])))
          ++ [digest ((packEntries digest (sortEntries es)).obj)] := by
      simp [PackTree]
    rw [hshape, List.dropLast_concat]
  rw [hdrop]
  have hshape2 : ("dfo--" :: "> ." :: "" :: ((packEntries digest (sortEntries es)).blobs
        ++ ("< ." :: (packEntries digest (sortEntries es)).obj :: []))) ++ [t0]
      = "dfo--" :: "> ." :: "" :: ((packEntries digest (sortEntries es)).blobs
          ++ ("< ." :: (packEntries digest (sortEntries es)).obj :: t0 :: [])) := by
    simp
  rw [hshape2]
  rw [unpack_header_body digest m hd es hwf t0 []]

/-- Witness for C5: the single-file tree, with the trailer replaced by the
corrupt blob `"fff"`; the tree still materializes, `"fff"` comes back. -/
theorem unpack_trailer_unchecked_witness :
    DigestWF (fun _ => "") ∧ entriesWF [("a", Node.file "x" false)] = true
    ∧ _UnpackTree (fun _ => "") 511
        ((PackTree (fun _ => "") [("a", Node.file "x" false)]).stream.dropLast ++ ["fff"])
        (.dir [])
      = (mirrorNode 511 (.dir [("a", Node.file "x" false)]), .ok "fff") := by
  have hd : DigestWF (fun _ => "") := by
    intro s c hc
    exact absurd hc (by simp [String.data])
  have hwf : entriesWF [("a", Node.file "x" false)] = true := by
    simp [entriesWF, nodeWF, nameOk]
  exact ⟨hd, hwf, unpack_trailer_unchecked (fun _ => "") 511 _ "fff" hd hwf⟩

end Dfo
